import Mathlib

/-!
Stevelabs command engine (`src/modules/commands.js`)

A shallow embedding of `Commands.parseCommand` and of the command handlers it
dispatches to.  JavaScript strings are modelled as lists of characters; the
three regular expressions of `parseCommand` are modelled by deterministic
matchers that are tried at every position from left to right, the way a global
`String.prototype.replace` walks its subject.
-/

namespace Stevelabs

/-- JavaScript string, as the list of its characters. -/
abbrev Str := List Char

/-! ## Shared string helpers -/

/-- `Array.prototype.join(' ')` on an array of strings. -/
def joinSp : List Str → Str
  | [] => []
  | [x] => x
  | x :: y :: r => x ++ ' ' :: joinSp (y :: r)

/-- `Array.prototype.slice(start, end)` for non-negative integer bounds: the
elements at the indices `start ≤ i < end` that exist. -/
def jsSlice {α : Type} (xs : List α) (start stop : Nat) : List α :=
  (xs.take stop).drop start

/-- Numeric value of a string of decimal digits (`ToNumber` on `\d+`). -/
def digitsToNat (ds : Str) : Nat :=
  ds.foldl (fun acc c => acc * 10 + (c.toNat - 48)) 0

/-- The array index a property key written with decimal digits denotes: only
the canonical spelling of a number (no leading zero) is an array index, any
other key names an ordinary property, which an array of arguments lacks. -/
def arrayIndex (ds : Str) : Option Nat :=
  match ds with
  | [] => none
  | [_] => some (digitsToNat ds)
  | c :: _ :: _ => if c = '0' then none else some (digitsToNat ds)

/-- `ToString(undefined)`, what `replace` inserts when its callback returns
`undefined`. -/
def undefinedText : Str := "undefined".toList

/-! ## Global replace with a callback -/

/-- `subject.replace(re, callback)` for a global regular expression that never
matches the empty string.  `matchAt s` says whether `re` matches at the start
of `s`, giving the captures and the length of the match.  The subject is
walked left to right; at a position inside an earlier match (`skip > 0`)
nothing is tried.  The callback may read and update a state (the array the
source's callbacks push to or shift from). -/
def replaceG {μ σ : Type} (matchAt : Str → Option (μ × Nat)) (cb : μ → σ → Str × σ) :
    Nat → Str → σ → Str × σ
  | _, [], st => ([], st)
  | skip + 1, _ :: t, st => replaceG matchAt cb skip t st
  | 0, c :: t, st =>
    match matchAt (c :: t) with
    | some (m, len) =>
      let r := cb m st
      let rest := replaceG matchAt cb (len - 1) t r.2
      (r.1 ++ rest.1, rest.2)
    | none =>
      let rest := replaceG matchAt cb 0 t st
      (c :: rest.1, rest.2)

/-! ## Positional pass (`commands.js` lines 284-298) -/

/-- Captures of `/\$\{(\d+)(\:(\d*))?\}/`: `start` is group 1, `stop` is group 3
and is `none` exactly when the optional group 2 did not take part. -/
structure PosMatch where
  start : Str
  stop : Option Str
  deriving DecidableEq, Repr

/-- Match `/\$\{(\d+)(\:(\d*))?\}/` at the start of `s`. -/
def matchPositional (s : Str) : Option (PosMatch × Nat) :=
  match s with
  | c0 :: c1 :: t =>
    if c0 = '$' ∧ c1 = '{' then
      let ds := t.takeWhile Char.isDigit
      if ds = [] then none
      else
        match t.dropWhile Char.isDigit with
        | c2 :: r =>
          if c2 = '}' then some (⟨ds, none⟩, ds.length + 3)
          else if c2 = ':' then
            let es := r.takeWhile Char.isDigit
            match r.dropWhile Char.isDigit with
            | c3 :: _ =>
              if c3 = '}' then some (⟨ds, some es⟩, ds.length + es.length + 4) else none
            | [] => none
          else none
        | [] => none
    else none
  | _ => none

/-- The text `${N}` for a digit string `N`. -/
def indexPlaceholder (ds : Str) : Str := '$' :: '{' :: (ds ++ ['}'])

/-- The text `${N:}` for a digit string `N`. -/
def openPlaceholder (ds : Str) : Str := '$' :: '{' :: (ds ++ [':', '}'])

/-- The text `${N:M}` for digit strings `N` and `M`. -/
def rangePlaceholder (ds es : Str) : Str := '$' :: '{' :: (ds ++ ':' :: (es ++ ['}']))

/-- The callback of the positional `replace`. -/
def positionalValue (params : List Str) (m : PosMatch) : Str :=
  match m.stop with
  | some e =>
    if e ≠ [] then
      let stop := digitsToNat e
      let stop := if 0 ≤ stop then stop + 1 else stop
      joinSp (jsSlice params (digitsToNat m.start) stop)
    else
      joinSp (params.drop (digitsToNat m.start))
  | none =>
    match (arrayIndex m.start).bind (fun i => params[i]?) with
    | some v => v
    | none => undefinedText

/-- The string `parsed` after the first `replace` of `parseCommand`. -/
def positionalPass (command : Str) (params : List Str) : Str :=
  (replaceG matchPositional (fun m (_ : Unit) => (positionalValue params m, ())) 0 command ()).1

/-- Whether a positional placeholder starts somewhere in the string. -/
def hasPositional (s : Str) : Bool :=
  s.tails.any (fun t => (matchPositional t).isSome)

/-- Whether the string starts with `$`. -/
def startsDollar (s : Str) : Bool :=
  match s with
  | c :: _ => decide (c = '$')
  | [] => false

/-- Whether the string starts like a named placeholder: `$`, `{` and a
letter. -/
def startsNamed (s : Str) : Bool :=
  match s with
  | c0 :: c1 :: c2 :: _ => decide (c0 = '$') && decide (c1 = '{') && c2.isAlpha
  | _ => false

/-- Every `$` of the string starts a positional placeholder or is directly
followed by `{` and a letter. -/
def dollarsWellFormed (s : Str) : Bool :=
  s.tails.all (fun t => !startsDollar t || (matchPositional t).isSome || startsNamed t)

/-- Every `$` of the string is directly followed by `{` and a letter. -/
def dollarsNamedOnly (s : Str) : Bool :=
  s.tails.all (fun t => !startsDollar t || startsNamed t)

/-! ## Named pass (`commands.js` lines 300-334) -/

/-- One match of `/\$\{([a-z][0-9a-z]*)(?: (.+?))?\}/gi`: `text` is the whole
match, `fn` is group 1 and `p` is group 2 (`none` when the optional group did
not take part, so `undefined` in the callback). -/
structure NamedMatch where
  text : Str
  fn : Str
  p : Option Str
  deriving DecidableEq, Repr

/-- Line terminators, the characters `.` does not match. -/
def isLineTerminator (c : Char) : Bool :=
  c = '\n' || c = '\r' || c = Char.ofNat 0x2028 || c = Char.ofNat 0x2029

/-- The rest of the lazy `(.+?)` followed by `\}`, once its first character is
taken: the characters up to the first closing brace, none of them a line
terminator. -/
def lazyParam : Str → Option Str
  | [] => none
  | c :: t =>
    if c = '}' then some []
    else if isLineTerminator c then none
    else (lazyParam t).map (fun q => c :: q)

/-- Match `/\$\{([a-z][0-9a-z]*)(?: (.+?))?\}/i` at the start of `s`.  With the
`i` flag and no `u` flag the classes are the ASCII letters and digits. -/
def matchNamed (s : Str) : Option (NamedMatch × Nat) :=
  match s with
  | c0 :: c1 :: c2 :: t =>
    if c0 = '$' ∧ c1 = '{' ∧ c2.isAlpha = true then
      let fn := c2 :: t.takeWhile Char.isAlphanum
      match t.dropWhile Char.isAlphanum with
      | c3 :: r =>
        if c3 = '}' then some (⟨s.take (fn.length + 3), fn, none⟩, fn.length + 3)
        else if c3 = ' ' then
          match r with
          | c4 :: r1 =>
            if isLineTerminator c4 = true then none
            else
              match lazyParam r1 with
              | some q =>
                some (⟨s.take (fn.length + q.length + 5), fn, some (c4 :: q)⟩,
                  fn.length + q.length + 5)
              | none => none
          | [] => none
        else none
      | [] => none
    else none
  | _ => none

/-- An awaited external call: fulfilled with a value, or rejected. -/
inductive Lookup (α : Type) where
  | ok (a : α)
  | failed

/-- A channel object of the platform API; `game` is absent when the channel
has no category. -/
structure Channel where
  game : Option Str

/-- A user object of the platform API, with the outcome of `getChannel()`. -/
structure ApiUser where
  getChannel : Lookup (Option Channel)

/-- The invoking user (`userInfo`). -/
structure ChatUser where
  username : Str
  displayName : Str

/-- What `parseCommand` reads from outside `commands.js`.  The user lookup is
indexed by the sequence number of the placeholder that issues it, so that two
lookups of the same name may answer differently. -/
structure Env where
  game : Str
  getUserByName : Nat → Str → Lookup (Option ApiUser)
  toLowerCase : Str → Str
  raffleModule : Bool
  leaderboardModule : Bool

/-- JavaScript truthiness of an optional string. -/
def truthy : Option Str → Bool
  | some (_ :: _) => true
  | _ => false

/-- Final state of one promise of `promises`: resolved with a value, or never
settled.  The executor is an `async` function, so an exception raised in it
rejects the promise that function returns and leaves the promise under
construction pending. -/
inductive Settled where
  | resolved (v : Str)
  | pending
  deriving DecidableEq, Repr

/-- The executor of the promise built for one named placeholder; `seq` is the
number of promises pushed before it. -/
def resolveTask (env : Env) (userInfo : Option ChatUser) (seq : Nat) (m : NamedMatch) :
    Settled :=
  if m.fn = "user".toList then
    match userInfo with
    | some u => .resolved u.displayName
    | none => .resolved "user".toList
  else if m.fn = "channel".toList then
    match m.p with
    | some p => .resolved (env.toLowerCase p)
    | none => .pending
  else if m.fn = "game".toList then
    match m.p with
    | none => .resolved env.game
    | some p =>
      match env.getUserByName seq p with
      | .failed => .pending
      | .ok none => .resolved "unknown".toList
      | .ok (some user) =>
        match user.getChannel with
        | .failed => .pending
        | .ok none => .resolved "unknown".toList
        | .ok (some channel) =>
          match channel.game with
          | some g => if truthy (some g) then .resolved g else .resolved "unknown".toList
          | none => .resolved "unknown".toList
  else .resolved m.text

/-- The value a settled promise delivers. -/
def Settled.value? : Settled → Option Str
  | .resolved v => some v
  | .pending => none

/-- The array `promises` after the scanning `replace` of line 301. -/
def collectTasks (env : Env) (userInfo : Option ChatUser) (parsed : Str) : List Settled :=
  (replaceG matchNamed
    (fun m (promises : List Settled) =>
      (undefinedText, promises ++ [resolveTask env userInfo promises.length m]))
    0 parsed []).2

/-- All entries present. -/
def allSome {α : Type} : List (Option α) → Option (List α)
  | [] => some []
  | none :: _ => none
  | some a :: r => (allSome r).map (fun l => a :: l)

/-- Delivery of the fulfilment of promise `i` to `Promise.all`: the value is
stored in slot `i`.  A promise that never settles delivers nothing. -/
def deliver (promises : List Settled) (values : List (Option Str)) (i : Nat) :
    List (Option Str) :=
  match promises[i]? with
  | some (Settled.resolved v) => values.set i (some v)
  | _ => values

/-- `await Promise.all(promises)`.  `order` lists the promises in the order
their fulfilment is delivered.  The result is the array of slots once every
slot is filled, and `none` when the combined promise never settles. -/
def promiseAll (promises : List Settled) (order : List Nat) : Option (List Str) :=
  allSome (order.foldl (deliver promises) (List.replicate promises.length none))

/-- The callback `() => values.shift()` of line 334. -/
def shiftValue (_ : NamedMatch) (values : List Str) : Str × List Str :=
  match values with
  | v :: r => (v, r)
  | [] => (undefinedText, [])

/-- The string rebuilt by the `replace` of line 334, before `split`. -/
def reassemble (parsed : Str) (values : List Str) : Str :=
  (replaceG matchNamed shiftValue 0 parsed values).1

/-- Lines 300-334 up to `split`: the reassembled string, or `none` when the
join never settles. -/
def namedPass (env : Env) (userInfo : Option ChatUser) (parsed : Str) (order : List Nat) :
    Option Str :=
  (promiseAll (collectTasks env userInfo parsed) order).map (reassemble parsed)

/-! ## Declarative reading of the named pass -/

/-- A piece of a string scanned for named placeholders: a character outside
every placeholder, or a placeholder occurrence with its number in the
left-to-right count of occurrences. -/
inductive Piece where
  | text (c : Char)
  | placeholder (seq : Nat) (m : NamedMatch)
  deriving DecidableEq, Repr

/-- The pieces of a string from the position where `skip` characters of an
earlier placeholder remain, `seq` placeholders having been seen. -/
def piecesFrom : Nat → Nat → Str → List Piece
  | _, _, [] => []
  | skip + 1, seq, _ :: t => piecesFrom skip seq t
  | 0, seq, c :: t =>
    match matchNamed (c :: t) with
    | some (m, len) => .placeholder seq m :: piecesFrom (len - 1) (seq + 1) t
    | none => .text c :: piecesFrom 0 seq t

/-- The pieces of a string, left to right. -/
def pieces (s : Str) : List Piece := piecesFrom 0 0 s

/-- The text a piece stands for in the scanned string. -/
def Piece.source : Piece → Str
  | .text c => [c]
  | .placeholder _ m => m.text

/-- The scanned string with every placeholder occurrence replaced by the value
resolved for that very occurrence and every other character kept in place;
`none` when the promise of some occurrence never settles. -/
def splice (env : Env) (userInfo : Option ChatUser) : List Piece → Option Str
  | [] => some []
  | .text c :: r => (splice env userInfo r).map (fun out => c :: out)
  | .placeholder seq m :: r =>
    match resolveTask env userInfo seq m with
    | .resolved v => (splice env userInfo r).map (fun out => v ++ out)
    | .pending => none

/-- The promises of the placeholder occurrences among the pieces, in order. -/
def tasksOf (env : Env) (userInfo : Option ChatUser) : List Piece → List Settled
  | [] => []
  | .text _ :: r => tasksOf env userInfo r
  | .placeholder seq m :: r => resolveTask env userInfo seq m :: tasksOf env userInfo r

/-- The pieces with the placeholder occurrences replaced, left to right, by
the values shifted off a queue. -/
def fill : List Piece → List Str → Str
  | [], _ => []
  | .text c :: r, values => c :: fill r values
  | .placeholder _ _ :: r, v :: values => v ++ fill r values
  | .placeholder _ _ :: r, [] => undefinedText ++ fill r []

/-- The occurrence number of a placeholder piece. -/
def Piece.seq? : Piece → Option Nat
  | .text _ => none
  | .placeholder seq _ => some seq

/-- A sample environment: the local game is `chess`, the user `bob` is found
and streams `go`, every other lookup finds nobody. -/
def sampleEnv : Env where
  game := "chess".toList
  getUserByName := fun _ name =>
    if name = "bob".toList then .ok (some ⟨.ok (some ⟨some "go".toList⟩)⟩) else .ok none
  toLowerCase := fun s => s.map Char.toLower
  raffleModule := true
  leaderboardModule := true

/-- A sample invoking user. -/
def sampleUser : ChatUser := ⟨"alice".toList, "Alice".toList⟩

/-- The function names `parseCommand` resolves. -/
def knownFunctions : List Str := ["user", "channel", "game"].map String.toList

/-! ## Tokenization and dispatch (`commands.js` lines 334-339) -/

/-- The class `\s`. -/
def isJsSpace (c : Char) : Bool :=
  let n := c.toNat
  (9 ≤ n && n ≤ 13) || n = 0x20 || n = 0xA0 || n = 0x1680 || (0x2000 ≤ n && n ≤ 0x200A)
    || n = 0x2028 || n = 0x2029 || n = 0x202F || n = 0x205F || n = 0x3000 || n = 0xFEFF

/-- Worker of `splitWs`; `inSpace` says that the previous character was
whitespace. -/
def splitWsGo : Bool → Str → List Str
  | _, [] => [[]]
  | inSpace, c :: t =>
    if isJsSpace c then
      if inSpace then splitWsGo true t else [] :: splitWsGo true t
    else
      match splitWsGo false t with
      | tok :: r => (c :: tok) :: r
      | [] => [[c]]

/-- `s.split(/\s+/)`. -/
def splitWs (s : Str) : List Str := splitWsGo false s

/-- What `this[name]` is on a `Commands` instance. -/
inductive Member where
  | undefined
  | object
  | function
  deriving DecidableEq, Repr

/-- The command handlers declared by the class `Commands`. -/
def classHandlers : List Str :=
  ["say", "sfx", "tip", "addtip", "edittip", "deletetip", "raffle", "endraffle",
    "startraffle", "quote", "addquote", "editquote", "deletequote", "followage"].map
    String.toList

/-- The handlers `RaffleCommand` assigns to the `Commands` instance. -/
def raffleHandlers : List Str := ["raffle", "startraffle", "endraffle"].map String.toList

/-- The handlers `LeaderboardCommand` assigns to the `Commands` instance. -/
def leaderboardHandlers : List Str := ["leaderboard", "rank", "ignore"].map String.toList

/-- The function-valued properties every object inherits from
`Object.prototype`. -/
def objectPrototypeFunctions : List Str :=
  ["toString", "toLocaleString", "valueOf", "hasOwnProperty", "isPrototypeOf",
    "propertyIsEnumerable", "__defineGetter__", "__defineSetter__", "__lookupGetter__",
    "__lookupSetter__"].map String.toList

/-- The names bound to a command handler. -/
def isCommand (env : Env) (name : Str) : Bool :=
  decide (name ∈ classHandlers) || (env.raffleModule && decide (name ∈ raffleHandlers))
    || (env.leaderboardModule && decide (name ∈ leaderboardHandlers))

/-- Property lookup `this[name]` on the `Commands` instance: the fields set by
the constructor (`app`, `db`), the handlers, the other members of the class
(`constructor`, `parseCommand`) and what `Object.prototype` provides. -/
def lookupThis (env : Env) (name : Str) : Member :=
  if name = "app".toList ∨ name = "db".toList then .object
  else if isCommand env name then .function
  else if name = "constructor".toList ∨ name = "parseCommand".toList then .function
  else if name ∈ objectPrototypeFunctions then .function
  else if name = "__proto__".toList then .object
  else .undefined

/-- How a call of `parseCommand` ends. -/
inductive Dispatch where
  | hangs
  | commandNotFound
  | notAFunction (name : Str)
  | call (name : Str) (user : Option Str) (args : List Str)
  deriving DecidableEq, Repr

/-- Lines 335-339, on the reassembled string. -/
def dispatch (env : Env) (userInfo : Option ChatUser) (substituted : Str) : Dispatch :=
  match splitWs substituted with
  | [] => .commandNotFound
  | name :: args =>
    match lookupThis env name with
    | .undefined => .commandNotFound
    | .object => .notAFunction name
    | .function => .call name (userInfo.map (fun u => u.username)) args

/-- `Commands.parseCommand`; `order` is the order in which the scheduler
delivers the fulfilment of the placeholder promises. -/
def parseCommand (env : Env) (command : Str) (params : List Str)
    (userInfo : Option ChatUser) (order : List Nat) : Dispatch :=
  let parsed := positionalPass command params
  match namedPass env userInfo parsed order with
  | none => .hangs
  | some substituted => dispatch env userInfo substituted

/-! ## The handler `addtip` (`commands.js` lines 51-71) -/

/-- `String.prototype.length`: the number of UTF-16 code units. -/
def jsLength (s : Str) : Nat :=
  (s.map (fun c => if c.toNat < 0x10000 then 1 else 2)).sum

/-- Decimal text of a number in a template literal. -/
def numText (n : Nat) : Str := (Nat.repr n).toList

/-- The handler argument `user` in a template literal (`null` when absent). -/
def userText : Option Str → Str
  | some u => u
  | none => "null".toList

/-- Outcome of `db.run` as seen by its callback. -/
inductive RunResult where
  | failed
  | done (lastID : Nat)
  deriving DecidableEq, Repr

/-- Observable actions of a handler, in the order they happen. -/
inductive Effect where
  | say (text : Str)
  | insertTip (date : Nat) (user : Option Str) (message : Str)
  | warn (text : Str)
  | log
  | dbRun (sql : Str) (params : List Str)
  | dbGet (sql : Str)
  | saveSettings
  | sendAlert (kind : Str) (user : Str)
  | uncaughtTypeError
  deriving DecidableEq, Repr

/-- `Commands.addtip`; `now` is `Date.now()` and `run` the outcome of the
insert. -/
def addtip (now : Nat) (run : RunResult) (user : Option Str) (args : List Str) : List Effect :=
  let message := joinSp args
  if jsLength message < 2 then
    [.say (userText user ++ " Your tip message is too short (2 characters min, yours was ".toList
      ++ numText (jsLength message) ++ ")".toList)]
  else if jsLength message > 80 then
    [.say (userText user ++ " Your tip message is too long (80 characters max, yours was ".toList
      ++ numText (jsLength message) ++ ")".toList)]
  else
    .insertTip now user message ::
      (match run with
       | .failed => [.warn "error saving tip data".toList, .log]
       | .done lastID =>
         [.say ("Tip #".toList ++ numText lastID ++ " has been added to the list".toList)])

/-! ## Update and delete handlers (`commands.js` lines 73-106 and 227-260) -/

/-- Whether `s.match(/\d+/)` finds a match: the pattern is not anchored, so one
decimal digit anywhere in the string is enough. -/
def hasDigit (s : Str) : Bool := s.any Char.isDigit

/-- `String.prototype.trim`. -/
def jsTrim (s : Str) : Str :=
  ((s.dropWhile isJsSpace).reverse.dropWhile isJsSpace).reverse

/-- What a call of a handler does: the string it throws, if any, and its
observable actions in order. -/
structure HandlerRun where
  thrown : Option Str
  effects : List Effect
  deriving DecidableEq, Repr

/-- The failure of the update and delete handlers. -/
def invalidArguments : HandlerRun := ⟨some "invalid arguments".toList, []⟩

/-- `Commands.edittip`; `run` is the outcome of the update. -/
def edittip (run : RunResult) (_user : Option Str) (args : List Str) : HandlerRun :=
  if args.length < 2 || !hasDigit (args.headD []) then invalidArguments
  else
    let message := jsTrim (joinSp (args.drop 1))
    ⟨none, .dbRun "UPDATE tips SET message = ? WHERE id = ?".toList [message, args.headD []] ::
      (match run with
       | .failed => [.warn "error saving tip data".toList, .log]
       | .done _ => [.say ("Tip #".toList ++ args.headD [] ++ " has been edited!".toList)])⟩

/-- `Commands.deletetip`; `run` is the outcome of the delete. -/
def deletetip (run : RunResult) (_user : Option Str) (args : List Str) : HandlerRun :=
  if args.length < 1 || !hasDigit (args.headD []) then invalidArguments
  else
    ⟨none, .dbRun "DELETE FROM tips WHERE id = ?".toList [args.headD []] ::
      (match run with
       | .failed => [.warn "error deleting tip data".toList, .log]
       | .done _ => [.say ("Tip #".toList ++ args.headD [] ++ " has been deleted!".toList)])⟩

/-- `Commands.editquote`; `run` is the outcome of the update. -/
def editquote (run : RunResult) (_user : Option Str) (args : List Str) : HandlerRun :=
  if args.length < 2 || !hasDigit (args.headD []) then invalidArguments
  else
    let message := jsTrim (joinSp (args.drop 1))
    ⟨none, .dbRun "UPDATE quotes SET message = ? WHERE id = ?".toList [message, args.headD []] ::
      (match run with
       | .failed => [.warn "error saving quote data".toList, .log]
       | .done _ => [.say ("Quote #".toList ++ args.headD [] ++ " has been edited!".toList)])⟩

/-- `Commands.deletequote`; `run` is the outcome of the delete. -/
def deletequote (run : RunResult) (_user : Option Str) (args : List Str) : HandlerRun :=
  if args.length < 1 || !hasDigit (args.headD []) then invalidArguments
  else
    ⟨none, .dbRun "DELETE FROM quotes WHERE id = ?".toList [args.headD []] ::
      (match run with
       | .failed => [.warn "error deleting quote data".toList, .log]
       | .done _ => [.say ("Quote #".toList ++ args.headD [] ++ " has been deleted!".toList)])⟩

/-! ## Raffle handlers (`commands.js` lines 125-164, `commands/raffle.js` lines 47-86) -/

/-- The shared state the raffle handlers work on: the flag
`settings.raffle_active` and the participants on record (the rows of the table
`raffle`, or the users whose column `raffle` is set). -/
structure RaffleState where
  raffle_active : Bool
  pool : List Str
  deriving DecidableEq, Repr

/-- The failure of the raffle handlers. -/
def raffleNotActive : HandlerRun := ⟨some "raffle not active".toList, []⟩

/-- The text `${winner}`. -/
def winnerToken : Str := "$\x7bwinner\x7d".toList

/-- The first occurrence of `pat` in a string: the text before it and the text
after it. -/
def findFirst (pat : Str) (before : Str) : Str → Option (Str × Str)
  | [] => if pat.isPrefixOf [] then some (before, []) else none
  | c :: t =>
    if pat.isPrefixOf (c :: t) then some (before, (c :: t).drop pat.length)
    else findFirst pat (before ++ [c]) t

/-- The replacement text of `replace` with a string pattern: `$$`, `$&`, the
dollar followed by a backtick and the dollar followed by an apostrophe stand
for a dollar, the match, the text before it and the text after it. -/
def getSubstitution (matched before after : Str) : Str → Str
  | [] => []
  | [c] => [c]
  | c :: d :: r =>
    if c = '$' then
      if d = '$' then '$' :: getSubstitution matched before after r
      else if d = '&' then matched ++ getSubstitution matched before after r
      else if d = Char.ofNat 96 then before ++ getSubstitution matched before after r
      else if d = Char.ofNat 39 then after ++ getSubstitution matched before after r
      else c :: getSubstitution matched before after (d :: r)
    else c :: getSubstitution matched before after (d :: r)

/-- `s.replace(pat, repl)` with a string pattern: only the first occurrence is
replaced. -/
def jsReplace (s pat repl : Str) : Str :=
  match findFirst pat [] s with
  | some (before, after) => before ++ getSubstitution pat before after repl ++ after
  | none => s

/-- The row a `... ORDER BY RANDOM() LIMIT 1` query yields on the pool; `pick`
is the random choice. -/
def randomRow (pick : Nat) (pool : List Str) : Option Str :=
  pool[pick % pool.length]?

/-- The callback of the query of `endraffle`, once the query has succeeded with
`row`. -/
def endraffleDone (st : RaffleState) (row : Option Str) (args : List Str) :
    RaffleState × List Effect :=
  ({ st with raffle_active := false },
    .saveSettings ::
      (match row with
       | some winner =>
         [.sendAlert "rafflewinner".toList winner,
          .say (jsReplace (joinSp args) winnerToken winner)]
       | none => [.uncaughtTypeError]))

/-- `Commands.startraffle`; `fails` says whether the delete fails. -/
def startraffle (fails : Bool) (st : RaffleState) (_user : Option Str) (args : List Str) :
    RaffleState × HandlerRun :=
  if st.raffle_active then (st, raffleNotActive)
  else if fails then
    (st, ⟨none, [.dbGet "DELETE FROM raffle".toList,
      .warn "error deleting raffle data".toList, .log]⟩)
  else
    (⟨true, []⟩, ⟨none, [.dbGet "DELETE FROM raffle".toList, .saveSettings,
      .say (joinSp args)]⟩)

/-- `Commands.endraffle`; `fails` says whether the query fails and `pick` is
the random choice of the query. -/
def endraffle (fails : Bool) (pick : Nat) (st : RaffleState) (_user : Option Str)
    (args : List Str) : RaffleState × HandlerRun :=
  if !st.raffle_active then (st, raffleNotActive)
  else if fails then
    (st, ⟨none, [.dbGet "SELECT user FROM raffle ORDER BY RANDOM() LIMIT 1".toList,
      .warn "error retrieving raffle data".toList, .log]⟩)
  else
    let done := endraffleDone st (randomRow pick st.pool) args
    (done.1, ⟨none,
      .dbGet "SELECT user FROM raffle ORDER BY RANDOM() LIMIT 1".toList :: done.2⟩)

/-- `RaffleCommand.startraffle`; `fails` says whether the update fails. -/
def RaffleCommand.startraffle (fails : Bool) (st : RaffleState) (_user : Option Str)
    (args : List Str) : RaffleState × HandlerRun :=
  if st.raffle_active then (st, raffleNotActive)
  else if fails then
    (st, ⟨none, [.dbGet "UPDATE users SET raffle = 0".toList,
      .warn "error deleting raffle data".toList, .log]⟩)
  else
    (⟨true, []⟩, ⟨none, [.dbGet "UPDATE users SET raffle = 0".toList, .saveSettings,
      .say (joinSp args)]⟩)

/-- `RaffleCommand.endraffle`; `fails` says whether the query fails and `pick`
is the random choice of the query. -/
def RaffleCommand.endraffle (fails : Bool) (pick : Nat) (st : RaffleState)
    (_user : Option Str) (args : List Str) : RaffleState × HandlerRun :=
  if !st.raffle_active then (st, raffleNotActive)
  else if fails then
    (st, ⟨none,
      [.dbGet ("SELECT displayName FROM users WHERE raffle > 0 ".toList
          ++ "ORDER BY RANDOM() LIMIT 1".toList),
       .warn "error retrieving raffle data".toList, .log]⟩)
  else
    let done := endraffleDone st (randomRow pick st.pool) args
    (done.1, ⟨none,
      .dbGet ("SELECT displayName FROM users WHERE raffle > 0 ".toList
          ++ "ORDER BY RANDOM() LIMIT 1".toList) :: done.2⟩)

/-! ## Lemmas on the global replace -/

theorem replaceG_skip {μ σ : Type} (matchAt : Str → Option (μ × Nat)) (cb : μ → σ → Str × σ)
    (k : Nat) (s : Str) (st : σ) :
    replaceG matchAt cb k s st = replaceG matchAt cb 0 (s.drop k) st := by
  induction s generalizing k with
  | nil => cases k <;> simp [replaceG]
  | cons c t ih =>
    cases k with
    | zero => simp
    | succ k => simp only [replaceG, List.drop_succ_cons]; exact ih k

theorem replaceG_nil {μ σ : Type} (matchAt : Str → Option (μ × Nat)) (cb : μ → σ → Str × σ)
    (st : σ) : replaceG matchAt cb 0 [] st = ([], st) := by
  simp [replaceG]

theorem replaceG_cons_none {μ σ : Type} (matchAt : Str → Option (μ × Nat))
    (cb : μ → σ → Str × σ) (c : Char) (t : Str) (st : σ) (h : matchAt (c :: t) = none) :
    replaceG matchAt cb 0 (c :: t) st
      = (c :: (replaceG matchAt cb 0 t st).1, (replaceG matchAt cb 0 t st).2) := by
  simp [replaceG, h]

theorem replaceG_cons_some {μ σ : Type} (matchAt : Str → Option (μ × Nat))
    (cb : μ → σ → Str × σ) (c : Char) (t : Str) (st : σ) (m : μ) (len : Nat)
    (h : matchAt (c :: t) = some (m, len)) :
    replaceG matchAt cb 0 (c :: t) st
      = ((cb m st).1 ++ (replaceG matchAt cb 0 (t.drop (len - 1)) (cb m st).2).1,
         (replaceG matchAt cb 0 (t.drop (len - 1)) (cb m st).2).2) := by
  simp only [replaceG, h]
  rw [replaceG_skip]

/-! ## Lemmas on the positional pass -/

theorem positionalPass_nil (params : List Str) : positionalPass [] params = [] := by
  simp [positionalPass, replaceG]

theorem positionalPass_cons_none (params : List Str) (c : Char) (t : Str)
    (h : matchPositional (c :: t) = none) :
    positionalPass (c :: t) params = c :: positionalPass t params := by
  simp [positionalPass, replaceG_cons_none _ _ _ _ _ h]

theorem takeWhile_stop {p : Char → Bool} (ds : Str) (c : Char) (r : Str)
    (hds : ∀ x ∈ ds, p x = true) (hc : p c = false) :
    (ds ++ c :: r).takeWhile p = ds ∧ (ds ++ c :: r).dropWhile p = c :: r := by
  constructor
  · rw [List.takeWhile_append_of_pos hds]; simp [List.takeWhile_cons, hc]
  · rw [List.dropWhile_append_of_pos hds]; simp [List.dropWhile_cons, hc]

theorem mem_takeWhile_imp {p : Char → Bool} {l : Str} {x : Char}
    (h : x ∈ l.takeWhile p) : p x = true := by
  induction l with
  | nil => simp at h
  | cons a t ih =>
    by_cases ha : p a = true
    · simp only [List.takeWhile_cons, ha, if_true, List.mem_cons] at h
      rcases h with rfl | h
      · exact ha
      · exact ih h
    · simp [List.takeWhile_cons, ha] at h

/-- Shape of a successful positional match. -/
theorem matchPositional_inv {s : Str} {m : PosMatch} {len : Nat}
    (h : matchPositional s = some (m, len)) :
    ∃ ds rest, ds ≠ [] ∧ (∀ c ∈ ds, c.isDigit = true) ∧
      ((m = ⟨ds, none⟩ ∧ s = '$' :: '{' :: (ds ++ '}' :: rest) ∧ len = ds.length + 3) ∨
       (∃ es, (∀ c ∈ es, c.isDigit = true) ∧ m = ⟨ds, some es⟩ ∧
          s = '$' :: '{' :: (ds ++ ':' :: (es ++ '}' :: rest)) ∧
          len = ds.length + es.length + 4)) := by
  match s, h with
  | c0 :: c1 :: t, h =>
    simp only [matchPositional] at h
    by_cases h1 : c0 = '$' ∧ c1 = '{'
    · rw [if_pos h1] at h
      obtain ⟨rfl, rfl⟩ := h1
      by_cases h2 : t.takeWhile Char.isDigit = []
      · rw [if_pos h2] at h; simp at h
      · rw [if_neg h2] at h
        have ht := List.takeWhile_append_dropWhile Char.isDigit t
        generalize hr : t.dropWhile Char.isDigit = r at h ht
        generalize hds : t.takeWhile Char.isDigit = ds at h ht h2
        have hdig : ∀ c ∈ ds, c.isDigit = true := fun c hc => mem_takeWhile_imp (hds ▸ hc)
        cases r with
        | nil => simp at h
        | cons c2 r =>
          simp only at h
          by_cases h3 : c2 = '}'
          · rw [if_pos h3] at h
            simp only [Option.some.injEq, Prod.mk.injEq] at h
            subst h3
            exact ⟨ds, r, h2, hdig, Or.inl ⟨h.1.symm, by rw [ht], h.2.symm⟩⟩
          · rw [if_neg h3] at h
            by_cases h4 : c2 = ':'
            · rw [if_pos h4] at h
              subst h4
              have hr2 := List.takeWhile_append_dropWhile Char.isDigit r
              generalize hr3 : r.dropWhile Char.isDigit = r3 at h hr2
              generalize hes : r.takeWhile Char.isDigit = es at h hr2
              have hedig : ∀ c ∈ es, c.isDigit = true :=
                fun c hc => mem_takeWhile_imp (hes ▸ hc)
              cases r3 with
              | nil => simp at h
              | cons c3 r3 =>
                simp only at h
                by_cases h5 : c3 = '}'
                · rw [if_pos h5] at h
                  simp only [Option.some.injEq, Prod.mk.injEq] at h
                  subst h5
                  refine ⟨ds, r3, h2, hdig, Or.inr ⟨es, hedig, h.1.symm, ?_, h.2.symm⟩⟩
                  rw [hr2, ht]
                · rw [if_neg h5] at h; simp at h
            · rw [if_neg h4] at h; simp at h
    · rw [if_neg h1] at h; simp at h
  | [], h => simp [matchPositional] at h
  | [_], h => simp [matchPositional] at h

/-- A single-index placeholder is matched. -/
theorem matchPositional_index (ds rest : Str) (hne : ds ≠ [])
    (hds : ∀ c ∈ ds, c.isDigit = true) :
    matchPositional ('$' :: '{' :: (ds ++ '}' :: rest)) = some (⟨ds, none⟩, ds.length + 3) := by
  obtain ⟨h1, h2⟩ := takeWhile_stop (p := Char.isDigit) ds '}' rest hds (by decide)
  simp [matchPositional, h1, h2, hne]

/-- A range placeholder is matched, with or without an end bound. -/
theorem matchPositional_range (ds es rest : Str) (hne : ds ≠ [])
    (hds : ∀ c ∈ ds, c.isDigit = true) (hes : ∀ c ∈ es, c.isDigit = true) :
    matchPositional ('$' :: '{' :: (ds ++ ':' :: (es ++ '}' :: rest)))
      = some (⟨ds, some es⟩, ds.length + es.length + 4) := by
  obtain ⟨h1, h2⟩ := takeWhile_stop (p := Char.isDigit) ds ':' (es ++ '}' :: rest) hds (by decide)
  obtain ⟨h3, h4⟩ := takeWhile_stop (p := Char.isDigit) es '}' rest hes (by decide)
  simp [matchPositional, h1, h2, h3, h4, hne]

theorem matchPositional_len {s : Str} {m : PosMatch} {len : Nat}
    (h : matchPositional s = some (m, len)) : 1 ≤ len ∧ len ≤ s.length := by
  obtain ⟨ds, rest, _, _, h1 | ⟨es, _, h1⟩⟩ := matchPositional_inv h
  · obtain ⟨_, rfl, rfl⟩ := h1
    simp only [List.length_cons, List.length_append]; omega
  · obtain ⟨_, rfl, rfl⟩ := h1
    simp only [List.length_cons, List.length_append]; omega

theorem positionalPass_match (params : List Str) (s : Str) (m : PosMatch) (len : Nat)
    (h : matchPositional s = some (m, len)) :
    positionalPass s params = positionalValue params m ++ positionalPass (s.drop len) params := by
  have hl := matchPositional_len h
  cases s with
  | nil => simp at hl; omega
  | cons c t =>
    have hd : (c :: t).drop len = t.drop (len - 1) := by
      obtain ⟨k, rfl⟩ : ∃ k, len = k + 1 := ⟨len - 1, by omega⟩
      simp
    simp [positionalPass, replaceG_cons_some _ _ _ _ _ _ _ h, hd]

theorem takeWhile_dropWhile_append_stop {p : Char → Bool} (t : Str) (c : Char) (b : Str)
    (hc : p c = false) :
    (t ++ c :: b).takeWhile p = t.takeWhile p ∧
      (t ++ c :: b).dropWhile p = t.dropWhile p ++ c :: b := by
  induction t with
  | nil => simp [List.takeWhile_cons, List.dropWhile_cons, hc]
  | cons a t ih =>
    by_cases ha : p a = true
    · simp [List.takeWhile_cons, List.dropWhile_cons, ha, ih.1, ih.2]
    · simp [List.takeWhile_cons, List.dropWhile_cons, ha]

/-- A match never reaches past the next `$`: what follows a `$` is irrelevant
to the matches that start before it. -/
theorem matchPositional_append_dollar (a b : Str) (ha : a ≠ []) :
    matchPositional (a ++ '$' :: b) = matchPositional a := by
  match a, ha with
  | [c0], _ =>
    simp only [matchPositional, List.cons_append, List.nil_append]
    rw [if_neg (by intro h; exact absurd h.2 (by decide))]
  | c0 :: c1 :: t, _ =>
    obtain ⟨h1, h2⟩ := takeWhile_dropWhile_append_stop (p := Char.isDigit) t '$' b (by decide)
    simp only [matchPositional, List.cons_append, h1, h2]
    by_cases hc : c0 = '$' ∧ c1 = '{'
    · rw [if_pos hc, if_pos hc]
      by_cases hd : t.takeWhile Char.isDigit = []
      · rw [if_pos hd, if_pos hd]
      · rw [if_neg hd, if_neg hd]
        cases hr : t.dropWhile Char.isDigit with
        | nil => simp
        | cons c2 r =>
          simp only [List.cons_append]
          by_cases h3 : c2 = '}'
          · rw [if_pos h3, if_pos h3]
          · rw [if_neg h3, if_neg h3]
            by_cases h4 : c2 = ':'
            · rw [if_pos h4, if_pos h4]
              obtain ⟨h5, h6⟩ :=
                takeWhile_dropWhile_append_stop (p := Char.isDigit) r '$' b (by decide)
              rw [h5, h6]
              cases hr3 : r.dropWhile Char.isDigit with
              | nil => simp
              | cons c3 r3 => simp
            · rw [if_neg h4, if_neg h4]
    · rw [if_neg hc, if_neg hc]

/-- The positional pass works piecewise at every `$`. -/
theorem positionalPass_append_dollar (params : List Str) (b : Str) :
    ∀ (n : Nat) (a : Str), a.length ≤ n →
      positionalPass (a ++ '$' :: b) params
        = positionalPass a params ++ positionalPass ('$' :: b) params := by
  intro n
  induction n with
  | zero =>
    intro a ha
    have : a = [] := List.length_eq_zero.mp (by omega)
    subst this
    simp [positionalPass_nil]
  | succ n ih =>
    intro a ha
    cases a with
    | nil => simp [positionalPass_nil]
    | cons c t =>
      have hm := matchPositional_append_dollar (c :: t) b (by simp)
      cases hmt : matchPositional (c :: t) with
      | none =>
        rw [hmt] at hm
        rw [positionalPass_cons_none params c t hmt]
        rw [List.cons_append] at hm ⊢
        rw [positionalPass_cons_none params c _ hm]
        rw [ih t (by simpa using ha)]
        simp
      | some ml =>
        obtain ⟨m, len⟩ := ml
        rw [hmt] at hm
        have hl := matchPositional_len hmt
        rw [positionalPass_match params _ m len hm, positionalPass_match params _ m len hmt]
        rw [List.drop_append_of_le_length hl.2]
        rw [ih ((c :: t).drop len) (by simp only [List.length_drop, List.length_cons] at ha ⊢; omega)]
        simp

/-! ## Lemmas on the join -/

theorem allSome_eq_none_of_mem {α : Type} (l : List (Option α)) (h : none ∈ l) :
    allSome l = none := by
  induction l with
  | nil => simp at h
  | cons a t ih =>
    cases a with
    | none => rfl
    | some a =>
      have : none ∈ t := by simpa using h
      simp [allSome, ih this]

/-- Slot `i` after the deliveries of `order`, started from the slots `vals`. -/
theorem foldl_slots (promises : List Settled) (order : List Nat) :
    ∀ (vals : List (Option Str)) (i : Nat), vals.length = promises.length →
      (order.foldl (deliver promises) vals)[i]?
        = if i ∈ order ∧ ((promises[i]?).bind Settled.value?).isSome = true
          then some ((promises[i]?).bind Settled.value?) else vals[i]? := by
  induction order with
  | nil => intro vals i h; simp
  | cons j rest ih =>
    intro vals i hlen
    simp only [List.foldl_cons]
    cases hj : promises[j]? with
    | none =>
      have hd : deliver promises vals j = vals := by simp [deliver, hj]
      rw [hd, ih vals i hlen]
      by_cases hij : i = j
      · subst hij; simp [hj]
      · simp [hij]
    | some t =>
      cases t with
      | pending =>
        have hd : deliver promises vals j = vals := by simp [deliver, hj]
        rw [hd, ih vals i hlen]
        by_cases hij : i = j
        · subst hij; simp [hj, Settled.value?]
        · simp [hij]
      | resolved v =>
        have hd : deliver promises vals j = vals.set j (some v) := by simp [deliver, hj]
        have hjlt : j < promises.length := by
          rcases Nat.lt_or_ge j promises.length with h | h
          · exact h
          · rw [List.getElem?_eq_none h] at hj; simp at hj
        rw [hd, ih (vals.set j (some v)) i (by simp [hlen])]
        by_cases hij : i = j
        · subst hij
          simp [hj, List.getElem?_set, hlen, hjlt, Settled.value?]
        · have hji : ¬ j = i := fun h => hij h.symm
          simp [hij, List.getElem?_set, hji]

/-- A promise that never settles keeps the join from settling, whatever the
order of the deliveries. -/
theorem promiseAll_pending (promises : List Settled) (order : List Nat) (i : Nat)
    (h : promises[i]? = some Settled.pending) : promiseAll promises order = none := by
  unfold promiseAll
  apply allSome_eq_none_of_mem
  have h2 := foldl_slots promises order (List.replicate promises.length none) i (by simp)
  have hlt : i < promises.length := by
    rcases Nat.lt_or_ge i promises.length with h' | h'
    · exact h'
    · rw [List.getElem?_eq_none h'] at h; simp at h
  rw [h] at h2
  simp only [Option.bind, Settled.value?, Option.isSome, and_false, Bool.false_eq_true,
    if_false, List.getElem?_replicate, if_pos hlt] at h2
  exact List.mem_iff_getElem?.mpr ⟨i, h2⟩

theorem allSome_map_value (vs : List Str) :
    allSome ((vs.map Settled.resolved).map Settled.value?) = some vs := by
  induction vs with
  | nil => rfl
  | cons v r ih => simp only [List.map_cons, Settled.value?, allSome, ih]; rfl

/-- Once every promise has been delivered, in any order, the join yields the
values in the order of the promises. -/
theorem promiseAll_covered (promises : List Settled) (order : List Nat)
    (h : ∀ i, i < promises.length → i ∈ order) :
    promiseAll promises order = allSome (promises.map Settled.value?) := by
  unfold promiseAll
  congr 1
  apply List.ext_getElem?
  intro i
  rw [foldl_slots promises order (List.replicate promises.length none) i (by simp)]
  rcases Nat.lt_or_ge i promises.length with hlt | hge
  · have hp : promises[i]? = some promises[i] := List.getElem?_eq_getElem hlt
    cases hpi : promises[i] with
    | resolved v =>
      rw [hpi] at hp
      simp [hp, h i hlt, Settled.value?]
    | pending =>
      rw [hpi] at hp
      simp [hp, hpi, Settled.value?, List.getElem?_replicate, hlt]
  · simp [List.getElem?_eq_none hge, List.getElem?_replicate, Nat.not_lt.mpr hge]

/-! ## Lemmas on the named pass -/

theorem piecesFrom_skip (k seq : Nat) (s : Str) :
    piecesFrom k seq s = piecesFrom 0 seq (s.drop k) := by
  induction s generalizing k with
  | nil => cases k <;> simp [piecesFrom]
  | cons c t ih =>
    cases k with
    | zero => simp
    | succ k => simp only [piecesFrom, List.drop_succ_cons]; exact ih k

theorem lazyParam_shape {r q : Str} (h : lazyParam r = some q) :
    ∃ rest, r = q ++ '}' :: rest := by
  induction r generalizing q with
  | nil => simp [lazyParam] at h
  | cons c t ih =>
    simp only [lazyParam] at h
    by_cases h1 : c = '}'
    · rw [if_pos h1] at h
      simp only [Option.some.injEq] at h
      subst h; subst h1
      exact ⟨t, rfl⟩
    · rw [if_neg h1] at h
      by_cases h2 : isLineTerminator c = true
      · rw [if_pos h2] at h; simp at h
      · rw [if_neg h2] at h
        cases hq : lazyParam t with
        | none => rw [hq] at h; simp at h
        | some q1 =>
          rw [hq] at h
          simp only [Option.map_some', Option.some.injEq] at h
          subst h
          obtain ⟨rest, hrest⟩ := ih hq
          exact ⟨rest, by rw [hrest]; rfl⟩

/-- A named match covers at least one character, lies within the string and
its text is the matched prefix. -/
theorem matchNamed_len {s : Str} {m : NamedMatch} {len : Nat}
    (h : matchNamed s = some (m, len)) :
    1 ≤ len ∧ len ≤ s.length ∧ m.text = s.take len := by
  match s, h with
  | c0 :: c1 :: c2 :: t, h =>
    simp only [matchNamed] at h
    by_cases h1 : c0 = '$' ∧ c1 = '{' ∧ c2.isAlpha = true
    · rw [if_pos h1] at h
      have ht := List.takeWhile_append_dropWhile Char.isAlphanum t
      have hlen : (t.takeWhile Char.isAlphanum).length + (t.dropWhile Char.isAlphanum).length
          = t.length := by
        rw [← List.length_append, ht]
      generalize hr : t.dropWhile Char.isAlphanum = r at h hlen
      cases r with
      | nil => simp at h
      | cons c3 r =>
        simp only at h
        by_cases h3 : c3 = '}'
        · rw [if_pos h3] at h
          simp only [Option.some.injEq, Prod.mk.injEq] at h
          obtain ⟨hm, hl⟩ := h
          subst hl
          refine ⟨by omega, ?_, by rw [← hm]⟩
          simp only [List.length_cons] at hlen ⊢
          omega
        · rw [if_neg h3] at h
          by_cases h4 : c3 = ' '
          · rw [if_pos h4] at h
            cases r with
            | nil => simp at h
            | cons c4 r1 =>
              simp only at h
              by_cases h5 : isLineTerminator c4 = true
              · rw [if_pos h5] at h; simp at h
              · rw [if_neg h5] at h
                cases hq : lazyParam r1 with
                | none => rw [hq] at h; simp at h
                | some q =>
                  rw [hq] at h
                  simp only [Option.some.injEq, Prod.mk.injEq] at h
                  obtain ⟨hm, hl⟩ := h
                  subst hl
                  obtain ⟨rest, hrest⟩ := lazyParam_shape hq
                  refine ⟨by omega, ?_, by rw [← hm]⟩
                  rw [hrest] at hlen
                  simp only [List.length_cons, List.length_append] at hlen ⊢
                  omega
          · rw [if_neg h4] at h; simp at h
    · rw [if_neg h1] at h; simp at h
  | [], h => simp [matchNamed] at h
  | [_], h => simp [matchNamed] at h
  | [_, _], h => simp [matchNamed] at h

/-- Putting the source text of the pieces back together gives the string. -/
theorem pieces_source (s : Str) :
    ∀ (n : Nat) (seq : Nat), s.length ≤ n →
      (piecesFrom 0 seq s).flatMap Piece.source = s := by
  intro n
  induction n generalizing s with
  | zero =>
    intro seq h
    have : s = [] := List.length_eq_zero.mp (by omega)
    subst this
    simp [piecesFrom]
  | succ n ih =>
    intro seq h
    cases s with
    | nil => simp [piecesFrom]
    | cons c t =>
      cases hm : matchNamed (c :: t) with
      | none =>
        simp only [piecesFrom, hm, List.flatMap_cons, Piece.source]
        rw [ih t seq (by simpa using h)]
        rfl
      | some ml =>
        obtain ⟨m, len⟩ := ml
        obtain ⟨h1, h2, h3⟩ := matchNamed_len hm
        simp only [piecesFrom, hm, List.flatMap_cons, Piece.source]
        rw [piecesFrom_skip, ih (t.drop (len - 1)) (seq + 1)
          (by simp only [List.length_drop, List.length_cons] at h ⊢; omega), h3]
        obtain ⟨k, rfl⟩ : ∃ k, len = k + 1 := ⟨len - 1, by omega⟩
        simp only [List.take_succ_cons, Nat.add_sub_cancel, List.cons_append,
          List.take_append_drop]

theorem pieces_flatMap_source (s : Str) : (pieces s).flatMap Piece.source = s :=
  pieces_source s s.length 0 (Nat.le_refl _)

/-- The scanning `replace` pushes the promises of the placeholder occurrences
in their left-to-right order. -/
theorem collect_eq_tasksOf (env : Env) (userInfo : Option ChatUser) (s : Str) :
    ∀ (k : Nat) (st : List Settled),
      (replaceG matchNamed
        (fun m (promises : List Settled) =>
          (undefinedText, promises ++ [resolveTask env userInfo promises.length m]))
        k s st).2 = st ++ tasksOf env userInfo (piecesFrom k st.length s) := by
  induction s with
  | nil => intro k st; cases k <;> simp [replaceG, piecesFrom, tasksOf]
  | cons c t ih =>
    intro k st
    cases k with
    | succ k => simp only [replaceG, piecesFrom]; exact ih k st
    | zero =>
      cases hm : matchNamed (c :: t) with
      | none =>
        simp only [replaceG, piecesFrom, hm, tasksOf]
        exact ih 0 st
      | some ml =>
        obtain ⟨m, len⟩ := ml
        simp only [replaceG, piecesFrom, hm, tasksOf]
        rw [ih (len - 1) (st ++ [resolveTask env userInfo st.length m])]
        simp

/-- The second `replace` hands the queued values to the placeholder
occurrences from left to right. -/
theorem reassemble_eq_fill (s : Str) :
    ∀ (k seq : Nat) (values : List Str),
      (replaceG matchNamed shiftValue k s values).1 = fill (piecesFrom k seq s) values := by
  induction s with
  | nil => intro k seq values; cases k <;> simp [replaceG, piecesFrom, fill]
  | cons c t ih =>
    intro k seq values
    cases k with
    | succ k => simp only [replaceG, piecesFrom]; exact ih k seq values
    | zero =>
      cases hm : matchNamed (c :: t) with
      | none =>
        simp only [replaceG, piecesFrom, hm, fill]
        rw [ih 0 seq values]
      | some ml =>
        obtain ⟨m, len⟩ := ml
        cases values with
        | nil =>
          simp only [replaceG, piecesFrom, hm, fill, shiftValue]
          rw [ih (len - 1) (seq + 1) []]
        | cons v r =>
          simp only [replaceG, piecesFrom, hm, fill, shiftValue]
          rw [ih (len - 1) (seq + 1) r]

/-- Filling the pieces with the joined values is the splice. -/
theorem fill_allSome_eq_splice (env : Env) (userInfo : Option ChatUser) (ps : List Piece) :
    (allSome ((tasksOf env userInfo ps).map Settled.value?)).map (fill ps)
      = splice env userInfo ps := by
  induction ps with
  | nil => rfl
  | cons a r ih =>
    cases a with
    | text c =>
      simp only [tasksOf, splice, ← ih]
      cases allSome ((tasksOf env userInfo r).map Settled.value?) with
      | none => rfl
      | some vs => rfl
    | placeholder seq m =>
      simp only [tasksOf, splice, List.map_cons]
      cases hr : resolveTask env userInfo seq m with
      | pending => simp [Settled.value?, allSome]
      | resolved v =>
        simp only [Settled.value?, allSome, ← ih]
        cases allSome ((tasksOf env userInfo r).map Settled.value?) with
        | none => rfl
        | some vs => rfl

/-- The named pass computes the splice of the pieces, whatever the order of
delivery, as long as every promise gets its turn. -/
theorem namedPass_eq_splice (env : Env) (userInfo : Option ChatUser) (s : Str)
    (order : List Nat)
    (h : ∀ i, i < (collectTasks env userInfo s).length → i ∈ order) :
    namedPass env userInfo s order = splice env userInfo (pieces s) := by
  have hc : collectTasks env userInfo s = tasksOf env userInfo (pieces s) := by
    have := collect_eq_tasksOf env userInfo s 0 []
    simpa [collectTasks, pieces] using this
  unfold namedPass
  rw [promiseAll_covered _ order h, hc, ← fill_allSome_eq_splice]
  have hf : reassemble s = fill (pieces s) := by
    funext values
    exact reassemble_eq_fill s 0 0 values
  rw [hf]

/-- The placeholder occurrences are numbered consecutively from left to
right. -/
theorem piecesFrom_seq (s : Str) :
    ∀ (k seq : Nat),
      (piecesFrom k seq s).filterMap Piece.seq?
        = List.range' seq ((piecesFrom k seq s).filterMap Piece.seq?).length := by
  induction s with
  | nil => intro k seq; cases k <;> simp [piecesFrom]
  | cons c t ih =>
    intro k seq
    cases k with
    | succ k => simp only [piecesFrom]; exact ih k seq
    | zero =>
      cases hm : matchNamed (c :: t) with
      | none =>
        simp only [piecesFrom, hm, List.filterMap_cons, Piece.seq?]
        exact ih 0 seq
      | some ml =>
        obtain ⟨m, len⟩ := ml
        simp only [piecesFrom, hm, List.filterMap_cons, Piece.seq?, List.length_cons,
          List.range'_succ]
        rw [← ih (len - 1) (seq + 1)]

theorem resolveTask_unknown (env : Env) (userInfo : Option ChatUser) (seq : Nat)
    (m : NamedMatch) (h : m.fn ∉ knownFunctions) :
    resolveTask env userInfo seq m = .resolved m.text := by
  have h1 : m.fn ≠ "user".toList := fun e => h (by rw [e]; decide)
  have h2 : m.fn ≠ "channel".toList := fun e => h (by rw [e]; decide)
  have h3 : m.fn ≠ "game".toList := fun e => h (by rw [e]; decide)
  simp only [resolveTask, if_neg h1, if_neg h2, if_neg h3]

theorem splice_unknown (env : Env) (userInfo : Option ChatUser) (ps : List Piece)
    (h : ∀ seq m, Piece.placeholder seq m ∈ ps → m.fn ∉ knownFunctions) :
    splice env userInfo ps = some (ps.flatMap Piece.source) := by
  induction ps with
  | nil => rfl
  | cons a r ih =>
    have ih1 := ih (fun seq m hm => h seq m (List.mem_cons_of_mem _ hm))
    cases a with
    | text c => simp [splice, ih1, Piece.source]
    | placeholder seq m =>
      have hu := resolveTask_unknown env userInfo seq m (h seq m (List.mem_cons_self _ _))
      simp [splice, hu, ih1, Piece.source]

/-! ## What the positional pass leaves behind -/

theorem digit_not_alpha (c : Char) (h : c.isDigit = true) : c.isAlpha = false := by
  simp only [Char.isDigit, Char.isAlpha, Char.isUpper, Char.isLower, Bool.and_eq_true,
    decide_eq_true_eq, Bool.or_eq_false_iff, Bool.and_eq_false_imp] at h ⊢
  obtain ⟨h1, h2⟩ := h
  have h1n : 48 ≤ c.val.toNat := h1
  have h2n : c.val.toNat ≤ 57 := h2
  constructor
  · intro h3
    have h3n : 65 ≤ c.val.toNat := h3
    omega
  · intro h3
    have h3n : 97 ≤ c.val.toNat := h3
    omega

theorem alpha_ne_dollar (c : Char) (h : c.isAlpha = true) : c ≠ '$' := by
  rintro rfl
  exact absurd h (by decide)

theorem matchPositional_of_ne_dollar (c : Char) (t : Str) (h : c ≠ '$') :
    matchPositional (c :: t) = none := by
  cases t with
  | nil => rfl
  | cons c1 t =>
    simp only [matchPositional]
    rw [if_neg (fun hc => h hc.1)]

theorem matchPositional_of_alpha (c2 : Char) (t : Str) (h : c2.isAlpha = true) :
    matchPositional ('$' :: '{' :: c2 :: t) = none := by
  have hd : c2.isDigit = false := by
    cases hc : c2.isDigit with
    | false => rfl
    | true => rw [digit_not_alpha c2 hc] at h; simp at h
  simp [matchPositional, List.takeWhile_cons, hd]

/-- Text without `$` passes through the positional pass unchanged. -/
theorem positionalPass_no_dollar (params : List Str) (a b : Str) (h : '$' ∉ a) :
    positionalPass (a ++ b) params = a ++ positionalPass b params := by
  induction a with
  | nil => rfl
  | cons c t ih =>
    have hc : c ≠ '$' := fun e => h (by rw [e]; exact List.mem_cons_self _ _)
    have ht : '$' ∉ t := fun e => h (List.mem_cons_of_mem _ e)
    rw [List.cons_append, positionalPass_cons_none params c _ (matchPositional_of_ne_dollar c _ hc),
      ih ht, List.cons_append]

/-- A text that starts like a named placeholder and holds no further `$` is
copied by the positional pass, and what surrounds it is processed on its
own. -/
theorem positionalPass_named_text (params : List Str) (pre post : Str) (c2 : Char) (t : Str)
    (hc2 : c2.isAlpha = true) (ht : '$' ∉ t) :
    positionalPass (pre ++ '$' :: '{' :: c2 :: t ++ post) params
      = positionalPass pre params ++ '$' :: '{' :: c2 :: t ++ positionalPass post params := by
  have h1 : pre ++ '$' :: '{' :: c2 :: t ++ post = pre ++ '$' :: ('{' :: c2 :: t ++ post) := by
    simp
  have hnd : '$' ∉ '{' :: c2 :: t := by
    intro h
    rcases List.mem_cons.mp h with h | h
    · exact absurd h (by decide)
    · rcases List.mem_cons.mp h with h | h
      · exact alpha_ne_dollar c2 hc2 h.symm
      · exact ht h
  have h2 : positionalPass ('$' :: ('{' :: c2 :: t ++ post)) params
      = '$' :: positionalPass ('{' :: c2 :: t ++ post) params :=
    positionalPass_cons_none params '$' _ (matchPositional_of_alpha c2 (t ++ post) hc2)
  rw [h1, positionalPass_append_dollar params _ pre.length pre (Nat.le_refl _), h2,
    positionalPass_no_dollar params _ post hnd]
  simp

theorem matchNamed_head {s : Str} {m : NamedMatch} {len : Nat}
    (h : matchNamed s = some (m, len)) :
    ∃ c2 t, s = '$' :: '{' :: c2 :: t ∧ c2.isAlpha = true ∧ 3 ≤ len := by
  match s, h with
  | c0 :: c1 :: c2 :: t, h =>
    simp only [matchNamed] at h
    by_cases h1 : c0 = '$' ∧ c1 = '{' ∧ c2.isAlpha = true
    · rw [if_pos h1] at h
      obtain ⟨rfl, rfl, h2⟩ := h1
      refine ⟨c2, t, rfl, h2, ?_⟩
      generalize t.dropWhile Char.isAlphanum = r at h
      cases r with
      | nil => simp at h
      | cons c3 r =>
        simp only at h
        by_cases h3 : c3 = '}'
        · rw [if_pos h3] at h
          simp only [Option.some.injEq, Prod.mk.injEq] at h
          omega
        · rw [if_neg h3] at h
          by_cases h4 : c3 = ' '
          · rw [if_pos h4] at h
            cases r with
            | nil => simp at h
            | cons c4 r1 =>
              simp only at h
              by_cases h5 : isLineTerminator c4 = true
              · rw [if_pos h5] at h; simp at h
              · rw [if_neg h5] at h
                cases hq : lazyParam r1 with
                | none => rw [hq] at h; simp at h
                | some q =>
                  rw [hq] at h
                  simp only [Option.some.injEq, Prod.mk.injEq] at h
                  omega
          · rw [if_neg h4] at h; simp at h
    · rw [if_neg h1] at h; simp at h
  | [], h => simp [matchNamed] at h
  | [_], h => simp [matchNamed] at h
  | [_, _], h => simp [matchNamed] at h

/-- A placeholder piece sits in the scanned string, and its text starts with
`$`, `{` and a letter. -/
theorem pieces_mem_decomp (nm : NamedMatch) (seq : Nat) :
    ∀ (n : Nat) (s : Str) (seq0 : Nat), s.length ≤ n →
      Piece.placeholder seq nm ∈ piecesFrom 0 seq0 s →
      ∃ pre post c2 t, s = pre ++ nm.text ++ post ∧ nm.text = '$' :: '{' :: c2 :: t
        ∧ c2.isAlpha = true := by
  intro n
  induction n with
  | zero =>
    intro s seq0 hl hmem
    have : s = [] := List.length_eq_zero.mp (by omega)
    subst this
    simp [piecesFrom] at hmem
  | succ n ih =>
    intro s seq0 hl hmem
    cases s with
    | nil => simp [piecesFrom] at hmem
    | cons c t =>
      cases hm : matchNamed (c :: t) with
      | none =>
        simp only [piecesFrom, hm, List.mem_cons, reduceCtorEq, false_or] at hmem
        obtain ⟨pre, post, c2, t2, h1, h2, h3⟩ := ih t seq0 (by simpa using hl) hmem
        exact ⟨c :: pre, post, c2, t2, by rw [h1]; simp, h2, h3⟩
      | some ml =>
        obtain ⟨m, len⟩ := ml
        obtain ⟨hl1, hl2, htext⟩ := matchNamed_len hm
        obtain ⟨c2, t2, hs, hc2, hl3⟩ := matchNamed_head hm
        simp only [piecesFrom, hm, List.mem_cons, Piece.placeholder.injEq] at hmem
        rcases hmem with ⟨_, rfl⟩ | hmem
        · refine ⟨[], (c :: t).drop len, c2, t2.take (len - 3), ?_, ?_, hc2⟩
          · rw [htext]; simp
          · rw [htext, hs]
            obtain ⟨k, rfl⟩ : ∃ k, len = k + 3 := ⟨len - 3, by omega⟩
            simp
        · rw [piecesFrom_skip] at hmem
          obtain ⟨pre, post, c3, t3, h1, h2, h3⟩ := ih (t.drop (len - 1)) (seq0 + 1)
            (by simp only [List.length_drop, List.length_cons] at hl ⊢; omega) hmem
          refine ⟨(c :: t).take len ++ pre, post, c3, t3, ?_, h2, h3⟩
          have hd : (c :: t).drop len = t.drop (len - 1) := by
            obtain ⟨k, rfl⟩ : ∃ k, len = k + 1 := ⟨len - 1, by omega⟩
            simp
          calc c :: t = (c :: t).take len ++ (c :: t).drop len := (List.take_append_drop _ _).symm
            _ = (c :: t).take len ++ (pre ++ nm.text ++ post) := by rw [hd, h1]
            _ = (c :: t).take len ++ pre ++ nm.text ++ post := by simp

theorem mem_joinSp {c : Char} (l : List Str) (h : c ∈ joinSp l) :
    c = ' ' ∨ ∃ a ∈ l, c ∈ a := by
  induction l with
  | nil => simp [joinSp] at h
  | cons x r ih =>
    cases r with
    | nil => exact Or.inr ⟨x, List.mem_cons_self _ _, by simpa [joinSp] using h⟩
    | cons y r =>
      simp only [joinSp, List.mem_append, List.mem_cons] at h
      rcases h with h | h | h
      · exact Or.inr ⟨x, List.mem_cons_self _ _, h⟩
      · exact Or.inl h
      · rcases ih h with h | ⟨a, ha, hc⟩
        · exact Or.inl h
        · exact Or.inr ⟨a, List.mem_cons_of_mem _ ha, hc⟩

theorem joinSp_no_dollar (l : List Str) (h : ∀ a ∈ l, '$' ∉ a) : '$' ∉ joinSp l := by
  intro hm
  rcases mem_joinSp l hm with h1 | ⟨a, ha, hc⟩
  · exact absurd h1 (by decide)
  · exact h a ha hc

/-- The text inserted for a positional placeholder holds no `$` when no
argument does. -/
theorem positionalValue_no_dollar (params : List Str) (m : PosMatch)
    (h : ∀ a ∈ params, '$' ∉ a) : '$' ∉ positionalValue params m := by
  unfold positionalValue
  cases hstop : m.stop with
  | some e =>
    simp only
    by_cases he : e ≠ []
    · rw [if_pos he]
      apply joinSp_no_dollar
      intro a ha
      exact h a (List.mem_of_mem_take (List.mem_of_mem_drop ha))
    · rw [if_neg he]
      apply joinSp_no_dollar
      intro a ha
      exact h a (List.mem_of_mem_drop ha)
  | none =>
    simp only
    cases hv : (arrayIndex m.start).bind (fun i => params[i]?) with
    | none => simp only; decide
    | some v =>
      simp only
      obtain ⟨i, _, hi⟩ := Option.bind_eq_some.mp hv
      exact h v (List.getElem?_mem hi)

theorem dollarsNamedOnly_cons (c : Char) (o : Str) :
    dollarsNamedOnly (c :: o)
      = ((!startsDollar (c :: o) || startsNamed (c :: o)) && dollarsNamedOnly o) := by
  simp [dollarsNamedOnly, List.tails]

theorem dollarsWellFormed_cons (c : Char) (o : Str) :
    dollarsWellFormed (c :: o)
      = ((!startsDollar (c :: o) || (matchPositional (c :: o)).isSome || startsNamed (c :: o))
          && dollarsWellFormed o) := by
  simp [dollarsWellFormed, List.tails]

theorem dollarsNamedOnly_append (a b : Str) (ha : '$' ∉ a) (hb : dollarsNamedOnly b = true) :
    dollarsNamedOnly (a ++ b) = true := by
  induction a with
  | nil => exact hb
  | cons c t ih =>
    have hc : c ≠ '$' := fun e => ha (by rw [e]; exact List.mem_cons_self _ _)
    have ht : '$' ∉ t := fun e => ha (List.mem_cons_of_mem _ e)
    rw [List.cons_append, dollarsNamedOnly_cons, ih ht]
    simp [startsDollar, hc]

theorem dollarsWellFormed_drop (s : Str) (k : Nat) (h : dollarsWellFormed s = true) :
    dollarsWellFormed (s.drop k) = true := by
  induction s generalizing k with
  | nil => simpa using h
  | cons c t ih =>
    cases k with
    | zero => simpa using h
    | succ k =>
      rw [dollarsWellFormed_cons] at h
      simp only [Bool.and_eq_true] at h
      simpa using ih k h.2

/-- In the output of the positional pass every `$` is followed by `{` and a
letter, when that holds for every `$` of the command string outside the
positional placeholders and the arguments hold no `$`. -/
theorem positionalPass_dollarsNamedOnly (params : List Str)
    (hp : ∀ a ∈ params, '$' ∉ a) :
    ∀ (n : Nat) (s : Str), s.length ≤ n → dollarsWellFormed s = true →
      dollarsNamedOnly (positionalPass s params) = true := by
  intro n
  induction n with
  | zero =>
    intro s hl _
    have : s = [] := List.length_eq_zero.mp (by omega)
    subst this
    rfl
  | succ n ih =>
    intro s hl hw
    cases s with
    | nil => rfl
    | cons c t =>
      cases hm : matchPositional (c :: t) with
      | some ml =>
        obtain ⟨m, len⟩ := ml
        have hlen := matchPositional_len hm
        rw [positionalPass_match params _ m len hm]
        apply dollarsNamedOnly_append _ _ (positionalValue_no_dollar params m hp)
        apply ih _ _ (dollarsWellFormed_drop _ len hw)
        simp only [List.length_drop, List.length_cons] at hl ⊢
        omega
      | none =>
        rw [positionalPass_cons_none params c t hm]
        rw [dollarsWellFormed_cons, hm] at hw
        simp only [Bool.and_eq_true, Option.isSome_none, Bool.or_false, Bool.or_eq_true,
          Bool.not_eq_true'] at hw
        obtain ⟨hhead, htail⟩ := hw
        have iht := ih t (by simpa using hl) htail
        rw [dollarsNamedOnly_cons, iht, Bool.and_true]
        rcases hhead with hnd | hnamed
        · have hc : startsDollar (c :: positionalPass t params) = false := by
            simpa [startsDollar] using hnd
          simp [hc]
        · match t, hnamed, iht with
          | c1 :: c2 :: r, hnamed, _ =>
            simp only [startsNamed, Bool.and_eq_true, decide_eq_true_eq] at hnamed
            obtain ⟨⟨rfl, rfl⟩, hc2⟩ := hnamed
            rw [positionalPass_cons_none params '{' _
                (matchPositional_of_ne_dollar '{' _ (by decide)),
              positionalPass_cons_none params c2 _
                (matchPositional_of_ne_dollar c2 _ (alpha_ne_dollar c2 hc2))]
            simp [startsNamed, hc2]
          | [], hnamed, _ => simp [startsNamed] at hnamed
          | [_], hnamed, _ => simp [startsNamed] at hnamed

/-- A string in which every `$` is followed by `{` and a letter holds no
positional placeholder. -/
theorem hasPositional_of_namedOnly (s : Str) (h : dollarsNamedOnly s = true) :
    hasPositional s = false := by
  induction s with
  | nil => rfl
  | cons c t ih =>
    rw [dollarsNamedOnly_cons] at h
    simp only [Bool.and_eq_true, Bool.or_eq_true, Bool.not_eq_true'] at h
    obtain ⟨hhead, htail⟩ := h
    have iht := ih htail
    have hnone : matchPositional (c :: t) = none := by
      rcases hhead with hnd | hnamed
      · apply matchPositional_of_ne_dollar
        intro e
        simp [startsDollar, e] at hnd
      · match t, hnamed with
        | c1 :: c2 :: r, hnamed =>
          simp only [startsNamed, Bool.and_eq_true, decide_eq_true_eq] at hnamed
          obtain ⟨⟨rfl, rfl⟩, hc2⟩ := hnamed
          exact matchPositional_of_alpha c2 r hc2
        | [], hnamed => simp [startsNamed] at hnamed
        | [_], hnamed => simp [startsNamed] at hnamed
    unfold hasPositional at iht ⊢
    simp only [List.tails, List.any_cons, hnone, Option.isSome_none, Bool.false_or]
    exact iht

/-! ## Decimal numerals -/

theorem foldl_digits (ds : Str) (a : Nat) :
    ds.foldl (fun acc c => acc * 10 + (c.toNat - 48)) a
      = a * 10 ^ ds.length + digitsToNat ds := by
  induction ds generalizing a with
  | nil => simp [digitsToNat]
  | cons c t ih =>
    simp only [List.foldl_cons, digitsToNat, List.length_cons]
    rw [ih, ih (0 * 10 + (c.toNat - 48))]
    ring

theorem digitChar_value (k : Nat) (h : k < 10) :
    (Nat.digitChar k).toNat - 48 = k ∧ (Nat.digitChar k).isDigit = true := by
  interval_cases k <;> decide

theorem toDigitsCore_value (fuel : Nat) :
    ∀ (n : Nat) (ds : Str), n < fuel →
      digitsToNat (Nat.toDigitsCore 10 fuel n ds) = n * 10 ^ ds.length + digitsToNat ds := by
  induction fuel with
  | zero => intro n ds h; omega
  | succ fuel ih =>
    intro n ds h
    have hd := (digitChar_value (n % 10) (Nat.mod_lt _ (by decide))).1
    have hcons : digitsToNat (Nat.digitChar (n % 10) :: ds)
        = (n % 10) * 10 ^ ds.length + digitsToNat ds := by
      simp only [digitsToNat, List.foldl_cons]
      rw [foldl_digits, hd]
      simp [digitsToNat]
    simp only [Nat.toDigitsCore]
    by_cases h0 : n / 10 = 0
    · rw [if_pos h0, hcons]
      have : n % 10 = n := by omega
      rw [this]
    · rw [if_neg h0, ih (n / 10) _ (by omega), hcons, List.length_cons]
      have hdm := Nat.div_add_mod n 10
      have hp : 10 ^ (ds.length + 1) = 10 * 10 ^ ds.length := by ring
      rw [hp]
      calc n / 10 * (10 * 10 ^ ds.length) + (n % 10 * 10 ^ ds.length + digitsToNat ds)
          = (10 * (n / 10) + n % 10) * 10 ^ ds.length + digitsToNat ds := by ring
        _ = n * 10 ^ ds.length + digitsToNat ds := by rw [hdm]

theorem toDigitsCore_digits (fuel : Nat) :
    ∀ (n : Nat) (ds : Str), (∀ c ∈ ds, c.isDigit = true) →
      ∀ c ∈ Nat.toDigitsCore 10 fuel n ds, c.isDigit = true := by
  induction fuel with
  | zero => intro n ds h; simpa [Nat.toDigitsCore] using h
  | succ fuel ih =>
    intro n ds h
    have hd := (digitChar_value (n % 10) (Nat.mod_lt _ (by decide))).2
    have hcons : ∀ c ∈ Nat.digitChar (n % 10) :: ds, c.isDigit = true := by
      intro c hc
      rcases List.mem_cons.mp hc with rfl | hc
      · exact hd
      · exact h c hc
    simp only [Nat.toDigitsCore]
    by_cases h0 : n / 10 = 0
    · rw [if_pos h0]; exact hcons
    · rw [if_neg h0]; exact ih _ _ hcons

theorem toDigitsCore_ne_nil (fuel : Nat) :
    ∀ (n : Nat) (ds : Str), (0 < fuel ∨ ds ≠ []) → Nat.toDigitsCore 10 fuel n ds ≠ [] := by
  induction fuel with
  | zero =>
    intro n ds h
    rcases h with h | h
    · omega
    · simpa [Nat.toDigitsCore] using h
  | succ fuel ih =>
    intro n ds _
    simp only [Nat.toDigitsCore]
    by_cases h0 : n / 10 = 0
    · rw [if_pos h0]; simp
    · rw [if_neg h0]; exact ih _ _ (Or.inr (by simp))

/-- The decimal text of a number denotes that number. -/
theorem numText_value (n : Nat) : digitsToNat (numText n) = n := by
  have h := toDigitsCore_value (n + 1) n [] (by omega)
  simpa [numText, Nat.repr, Nat.toDigits, digitsToNat] using h

theorem numText_digits (n : Nat) : ∀ c ∈ numText n, c.isDigit = true := by
  have h := toDigitsCore_digits (n + 1) n [] (by simp)
  simpa [numText, Nat.repr, Nat.toDigits] using h

theorem numText_ne_nil (n : Nat) : numText n ≠ [] := by
  have h := toDigitsCore_ne_nil (n + 1) n [] (Or.inl (by omega))
  simpa [numText, Nat.repr, Nat.toDigits] using h

/-! ## Expansion of one positional placeholder -/

theorem jsSlice_getElem? {α : Type} (xs : List α) (n m k : Nat) :
    (jsSlice xs n (m + 1))[k]? = if n + k ≤ m then xs[n + k]? else none := by
  unfold jsSlice
  rw [List.getElem?_drop, List.getElem?_take]
  by_cases h : n + k ≤ m
  · rw [if_pos (by omega), if_pos h]
  · rw [if_neg (by omega), if_neg h]

/-- A placeholder in the middle of a command string is replaced by the value
of the callback; the text on either side is processed on its own. -/
theorem placeholder_expansion (params : List Str) (pre post : Str) (c : Char) (body : Str)
    (m : PosMatch)
    (hm : matchPositional ('$' :: '{' :: (c :: body ++ post))
      = some (m, (c :: body).length + 2)) :
    positionalPass (pre ++ '$' :: '{' :: (c :: body) ++ post) params
      = positionalPass pre params ++ positionalValue params m ++ positionalPass post params := by
  have hshape : pre ++ '$' :: '{' :: (c :: body) ++ post
      = pre ++ '$' :: ('{' :: (c :: body ++ post)) := by simp
  have hdrop : ('$' :: '{' :: (c :: body ++ post)).drop ((c :: body).length + 2) = post := by
    have : '$' :: '{' :: (c :: body ++ post) = ('$' :: '{' :: (c :: body)) ++ post := by simp
    rw [this]
    apply List.drop_left'
    simp only [List.length_cons]
  rw [hshape, positionalPass_append_dollar params _ pre.length pre (Nat.le_refl _),
    positionalPass_match params _ _ _ hm, hdrop, List.append_assoc]

theorem range_expansion (params : List Str) (pre post ds es : Str)
    (hds : ds ≠ []) (hdd : ∀ c ∈ ds, c.isDigit = true) (hed : ∀ c ∈ es, c.isDigit = true) :
    positionalPass (pre ++ rangePlaceholder ds es ++ post) params
      = positionalPass pre params ++ positionalValue params ⟨ds, some es⟩
          ++ positionalPass post params := by
  obtain ⟨c, t, rfl⟩ := List.exists_cons_of_ne_nil hds
  have hm := matchPositional_range (c :: t) es post hds hdd hed
  have h := placeholder_expansion params pre post c (t ++ ':' :: (es ++ ['}']))
    ⟨c :: t, some es⟩
    (by
      have e : c :: (t ++ ':' :: (es ++ ['}'])) ++ post = c :: t ++ ':' :: (es ++ '}' :: post) := by
        simp
      rw [e, hm]
      simp only [List.length_cons, List.length_append, List.length_nil]
      congr 2
      omega)
  have e2 : pre ++ rangePlaceholder (c :: t) es ++ post
      = pre ++ '$' :: '{' :: (c :: (t ++ ':' :: (es ++ ['}']))) ++ post := by
    simp [rangePlaceholder]
  rw [e2, h]

theorem index_expansion (params : List Str) (pre post ds : Str)
    (hds : ds ≠ []) (hdd : ∀ c ∈ ds, c.isDigit = true) :
    positionalPass (pre ++ indexPlaceholder ds ++ post) params
      = positionalPass pre params ++ positionalValue params ⟨ds, none⟩
          ++ positionalPass post params := by
  obtain ⟨c, t, rfl⟩ := List.exists_cons_of_ne_nil hds
  have hm := matchPositional_index (c :: t) post hds hdd
  have h := placeholder_expansion params pre post c (t ++ ['}']) ⟨c :: t, none⟩
    (by
      have e : c :: (t ++ ['}']) ++ post = c :: t ++ '}' :: post := by simp
      rw [e, hm]
      simp only [List.length_cons, List.length_append, List.length_nil])
  have e2 : pre ++ indexPlaceholder (c :: t) ++ post
      = pre ++ '$' :: '{' :: (c :: (t ++ ['}'])) ++ post := by
    simp [indexPlaceholder]
  rw [e2, h]

theorem openPlaceholder_eq (ds : Str) : openPlaceholder ds = rangePlaceholder ds [] := by
  simp [openPlaceholder, rangePlaceholder]

theorem positionalValue_range (params : List Str) (ds es : Str) (hes : es ≠ []) :
    positionalValue params ⟨ds, some es⟩
      = joinSp (jsSlice params (digitsToNat ds) (digitsToNat es + 1)) := by
  simp [positionalValue, hes]

theorem positionalValue_index_out_of_range (params : List Str) (ds : Str)
    (h : params.length ≤ digitsToNat ds) :
    positionalValue params ⟨ds, none⟩ = undefinedText := by
  have hnone : (arrayIndex ds).bind (fun i => params[i]?) = none := by
    cases hi : arrayIndex ds with
    | none => rfl
    | some i =>
      have hval : i = digitsToNat ds := by
        match ds, hi with
        | [_], hi => simpa [arrayIndex] using hi.symm
        | c :: _ :: _, hi =>
          simp only [arrayIndex] at hi
          by_cases hc : c = '0'
          · rw [if_pos hc] at hi; simp at hi
          · rw [if_neg hc] at hi; simpa using hi.symm
      simp only [Option.bind]
      exact List.getElem?_eq_none (by omega)
  simp only [positionalValue, hnone]

theorem jsSlice_out_of_range {α : Type} (xs : List α) (n m : Nat) (h : xs.length ≤ n) :
    jsSlice xs n m = [] := by
  unfold jsSlice
  apply List.drop_eq_nil_of_le
  rw [List.length_take]
  omega

/-! ## Main results -/

/-- C2: for every argument list and all numbers `N` and `M`, the positional
pass replaces `${N:M}` by the arguments at the indices `N` through `M`
inclusive that exist, joined by single spaces: the slice is taken up to
`M + 1`.  The text before and after the placeholder is processed on its own. -/
theorem positionalPass_range_inclusive (params : List Str) (pre post : Str) (N M : Nat) :
    positionalPass (pre ++ rangePlaceholder (numText N) (numText M) ++ post) params
      = positionalPass pre params ++ joinSp (jsSlice params N (M + 1))
          ++ positionalPass post params
    ∧ ∀ k : Nat, (jsSlice params N (M + 1))[k]?
        = if N + k ≤ M then params[N + k]? else none := by
  refine ⟨?_, fun k => jsSlice_getElem? params _ _ k⟩
  rw [range_expansion params pre post _ _ (numText_ne_nil N) (numText_digits N)
    (numText_digits M), positionalValue_range params _ _ (numText_ne_nil M),
    numText_value, numText_value]

/-- C3, as stated: with the arguments `a b c` the template `${0:1}` does not
expand to `a`. -/
theorem range_zero_one_is_not_a :
    positionalPass (rangePlaceholder "0".toList "1".toList)
      ["a".toList, "b".toList, "c".toList] ≠ "a".toList := by
  decide

/-- C3, amended: with the arguments `a b c` the template `${0:1}` expands to
`a b`: the end bound is inclusive, so any `${N:M}` alone contributes the
arguments at the indices `N ≤ i ≤ M` that exist. -/
theorem positionalPass_zero_one (params : List Str) (N M : Nat) :
    positionalPass (rangePlaceholder "0".toList "1".toList)
        ["a".toList, "b".toList, "c".toList] = "a b".toList
    ∧ positionalPass (rangePlaceholder (numText N) (numText M)) params
        = joinSp (jsSlice params N (M + 1))
    ∧ (jsSlice params N (M + 1)).length = min (M + 1) params.length - N
    ∧ ∀ k : Nat, (jsSlice params N (M + 1))[k]?
        = if N + k ≤ M then params[N + k]? else none := by
  refine ⟨by decide, ?_, ?_, fun k => jsSlice_getElem? params _ _ k⟩
  · have h := range_expansion params [] [] _ _ (numText_ne_nil N) (numText_digits N)
      (numText_digits M)
    rw [positionalValue_range params _ _ (numText_ne_nil M), numText_value, numText_value] at h
    simpa [positionalPass_nil] using h
  · simp [jsSlice]

/-- C4: for every argument list and every index `N` at or past its end, the
placeholder `${N}` is replaced by the text `undefined`, while the range forms
`${N:}` and `${N:M}` contribute the empty string; with the arguments `a b c`
the placeholder `${5}` becomes `undefined`. -/
theorem positionalPass_index_out_of_range (params : List Str) (k M : Nat) :
    positionalPass (indexPlaceholder "5".toList) ["a".toList, "b".toList, "c".toList]
      = "undefined".toList
    ∧ positionalPass (indexPlaceholder (numText (params.length + k))) params
      = "undefined".toList
    ∧ positionalPass (openPlaceholder (numText (params.length + k))) params = []
    ∧ positionalPass (rangePlaceholder (numText (params.length + k)) (numText M)) params
      = [] := by
  refine ⟨by decide, ?_, ?_, ?_⟩
  · have h := index_expansion params [] [] _ (numText_ne_nil (params.length + k))
      (numText_digits _)
    rw [positionalValue_index_out_of_range params _ (by rw [numText_value]; omega)] at h
    simpa [positionalPass_nil, undefinedText] using h
  · have h := range_expansion params [] [] (numText (params.length + k)) []
      (numText_ne_nil _) (numText_digits _) (by simp)
    rw [← openPlaceholder_eq] at h
    have hv : positionalValue params ⟨numText (params.length + k), some []⟩ = [] := by
      simp only [positionalValue, ne_eq, not_true_eq_false, if_false, numText_value]
      rw [List.drop_eq_nil_of_le (by omega)]
      rfl
    rw [hv] at h
    simpa [positionalPass_nil] using h
  · have h := range_expansion params [] [] (numText (params.length + k)) (numText M)
      (numText_ne_nil _) (numText_digits _) (numText_digits M)
    rw [positionalValue_range params _ _ (numText_ne_nil M), numText_value, numText_value,
      jsSlice_out_of_range params _ _ (by omega)] at h
    simpa [positionalPass_nil, joinSp] using h

/-- C7: the fully substituted string `app` names no command handler, yet
`parseCommand` does not fail with `command not found`: `this["app"]` is the
application object, so the call on line 339 fails because it is not a
function. -/
theorem parseCommand_app_not_a_function (env : Env) (params : List Str)
    (userInfo : Option ChatUser) (order : List Nat) :
    isCommand env "app".toList = false
    ∧ parseCommand env "app".toList params userInfo order = .notAFunction "app".toList
    ∧ parseCommand env "app".toList params userInfo order ≠ .commandNotFound := by
  have hp : positionalPass "app".toList params = "app".toList := rfl
  have hc : collectTasks env userInfo "app".toList = [] := rfl
  have hall : promiseAll [] order = some [] := by
    rw [promiseAll_covered [] order (by simp)]; rfl
  have hr : reassemble "app".toList [] = "app".toList := rfl
  have hpc : parseCommand env "app".toList params userInfo order
      = .notAFunction "app".toList := by
    simp only [parseCommand, namedPass, hp, hc, hall, Option.map, hr]
    rfl
  refine ⟨?_, hpc, ?_⟩
  · cases env with
    | mk g u l r b => cases r <;> cases b <;> rfl
  · rw [hpc]; simp

/-- C8: a `channel` placeholder without a parameter leaves its promise
unsettled, so `parseCommand` never gets past the join, whatever the arguments,
the user and the order of delivery. -/
theorem parseCommand_channel_without_parameter (env : Env) (params : List Str)
    (userInfo : Option ChatUser) (order : List Nat) (seq : Nat) :
    resolveTask env userInfo seq
        ⟨"$\x7bchannel\x7d".toList, "channel".toList, none⟩ = .pending
    ∧ collectTasks env userInfo "say $\x7bchannel\x7d".toList = [.pending]
    ∧ parseCommand env "say $\x7bchannel\x7d".toList params userInfo order = .hangs := by
  have hp : positionalPass "say $\x7bchannel\x7d".toList params
      = "say $\x7bchannel\x7d".toList := rfl
  have hc : collectTasks env userInfo "say $\x7bchannel\x7d".toList = [.pending] := rfl
  refine ⟨rfl, hc, ?_⟩
  simp only [parseCommand, namedPass, hp, hc]
  rw [promiseAll_pending [.pending] order 0 rfl]
  rfl

/-- C9: when the user lookup of a `game` placeholder fails, or the channel
lookup on the user found fails, the promise of the placeholder is left
unsettled and `parseCommand` never gets past the join; the text `unknown` is
produced only when a lookup answers without a user, a channel or a game. -/
theorem parseCommand_game_lookup_failure (env : Env) (params : List Str)
    (userInfo : Option ChatUser) (order : List Nat) (seq : Nat) (text p : Str) :
    resolveTask { env with getUserByName := fun _ _ => .failed } userInfo seq
        ⟨text, "game".toList, some p⟩ = .pending
    ∧ resolveTask { env with getUserByName := fun _ _ => .ok (some ⟨.failed⟩) } userInfo seq
        ⟨text, "game".toList, some p⟩ = .pending
    ∧ parseCommand { env with getUserByName := fun _ _ => .failed }
        "say $\x7bgame bob\x7d".toList params userInfo order = .hangs
    ∧ resolveTask { env with getUserByName := fun _ _ => .ok none } userInfo seq
        ⟨text, "game".toList, some p⟩ = .resolved "unknown".toList
    ∧ resolveTask { env with getUserByName := fun _ _ => .ok (some ⟨.ok none⟩) } userInfo seq
        ⟨text, "game".toList, some p⟩ = .resolved "unknown".toList
    ∧ resolveTask { env with getUserByName := fun _ _ => .ok (some ⟨.ok (some ⟨none⟩)⟩) }
        userInfo seq ⟨text, "game".toList, some p⟩ = .resolved "unknown".toList := by
  have hp : positionalPass "say $\x7bgame bob\x7d".toList params
      = "say $\x7bgame bob\x7d".toList := rfl
  have hc : collectTasks { env with getUserByName := fun _ _ => .failed } userInfo
      "say $\x7bgame bob\x7d".toList = [.pending] := rfl
  refine ⟨rfl, rfl, ?_, rfl, rfl, rfl⟩
  simp only [parseCommand, namedPass, hp, hc]
  rw [promiseAll_pending [.pending] order 0 rfl]
  rfl

/-- C10: `addtip` does exactly one of three things, decided by the length `n`
of the arguments joined by single spaces: below 2 it says the too-short
message with `2 characters min` and `n` and stores nothing; above 80 it says
the too-long message with `80 characters max` and `n` and stores nothing;
otherwise it issues one insert of the message and, when the insert succeeds,
says the identifier the insert was given. -/
theorem addtip_cases (now : Nat) (run : RunResult) (user : Option Str) (args : List Str) :
    (jsLength (joinSp args) < 2 →
      addtip now run user args
        = [.say (userText user
            ++ " Your tip message is too short (2 characters min, yours was ".toList
            ++ numText (jsLength (joinSp args)) ++ ")".toList)])
    ∧ (80 < jsLength (joinSp args) →
      addtip now run user args
        = [.say (userText user
            ++ " Your tip message is too long (80 characters max, yours was ".toList
            ++ numText (jsLength (joinSp args)) ++ ")".toList)])
    ∧ (2 ≤ jsLength (joinSp args) ∧ jsLength (joinSp args) ≤ 80 →
      (∀ lastID, run = .done lastID →
        addtip now run user args
          = [.insertTip now user (joinSp args),
             .say ("Tip #".toList ++ numText lastID
               ++ " has been added to the list".toList)])
      ∧ (run = .failed →
        addtip now run user args
          = [.insertTip now user (joinSp args),
             .warn "error saving tip data".toList, .log])) := by
  refine ⟨?_, ?_, ?_⟩
  · intro h
    simp [addtip, h]
  · intro h
    have h2 : ¬ jsLength (joinSp args) < 2 := by omega
    simp [addtip, h, h2]
  · rintro ⟨h1, h2⟩
    have h3 : ¬ jsLength (joinSp args) < 2 := by omega
    have h4 : ¬ jsLength (joinSp args) > 80 := by omega
    constructor
    · intro lastID hrun
      subst hrun
      simp [addtip, h3, h4]
    · intro hrun
      subst hrun
      simp [addtip, h3, h4]

theorem addtip_cases_witness :
    addtip 5 (.done 7) (some "bob".toList) ["a".toList]
      = [.say "bob Your tip message is too short (2 characters min, yours was 1)".toList]
    ∧ addtip 5 (.done 7) none [List.replicate 81 'x']
      = [.say "null Your tip message is too long (80 characters max, yours was 81)".toList]
    ∧ addtip 5 (.done 7) (some "bob".toList) ["ab".toList, "c".toList]
      = [.insertTip 5 (some "bob".toList) "ab c".toList,
         .say "Tip #7 has been added to the list".toList]
    ∧ addtip 5 .failed (some "bob".toList) ["ab".toList, "c".toList]
      = [.insertTip 5 (some "bob".toList) "ab c".toList,
         .warn "error saving tip data".toList, .log] :=
  ⟨((addtip_cases 5 (.done 7) (some "bob".toList) ["a".toList]).1 (by decide)).trans
      (by decide),
   ((addtip_cases 5 (.done 7) none [List.replicate 81 'x']).2.1 (by decide)).trans
      (by decide),
   (((addtip_cases 5 (.done 7) (some "bob".toList) ["ab".toList, "c".toList]).2.2
      (by decide)).1 7 rfl).trans (by decide),
   (((addtip_cases 5 .failed (some "bob".toList) ["ab".toList, "c".toList]).2.2
      (by decide)).2 rfl).trans (by decide)⟩

/-- C1: for every command string, argument list and invoking user, and
whatever order the promises are delivered in, the string rebuilt by
`parseCommand` is the output of the positional pass with the i-th named
placeholder occurrence replaced by the value resolved for that i-th occurrence
and every character between the occurrences kept in place; the occurrences are
numbered consecutively from left to right, and their source text together with
the characters between them is the scanned string. -/
theorem parseCommand_discovery_order (env : Env) (command : Str) (params : List Str)
    (userInfo : Option ChatUser) (order : List Nat)
    (h : ∀ i, i < (collectTasks env userInfo (positionalPass command params)).length →
      i ∈ order) :
    (pieces (positionalPass command params)).flatMap Piece.source
        = positionalPass command params
    ∧ (pieces (positionalPass command params)).filterMap Piece.seq?
        = List.range ((pieces (positionalPass command params)).filterMap Piece.seq?).length
    ∧ namedPass env userInfo (positionalPass command params) order
        = splice env userInfo (pieces (positionalPass command params))
    ∧ parseCommand env command params userInfo order
        = (match splice env userInfo (pieces (positionalPass command params)) with
          | none => Dispatch.hangs
          | some substituted => dispatch env userInfo substituted) := by
  have hn := namedPass_eq_splice env userInfo (positionalPass command params) order h
  refine ⟨pieces_flatMap_source _, ?_, hn, ?_⟩
  · rw [List.range_eq_range']
    exact piecesFrom_seq _ 0 0
  · simp only [parseCommand, hn]

theorem parseCommand_discovery_order_witness :
    namedPass sampleEnv (some sampleUser)
        (positionalPass "say $\x7bgame $\x7b0\x7d\x7d and $\x7buser\x7d".toList ["bob".toList])
        [1, 0]
      = some "say go and Alice".toList
    ∧ parseCommand sampleEnv "say $\x7bgame $\x7b0\x7d\x7d and $\x7buser\x7d".toList
        ["bob".toList] (some sampleUser) [1, 0]
      = .call "say".toList (some "alice".toList) ["go".toList, "and".toList, "Alice".toList] :=
  have h := parseCommand_discovery_order sampleEnv
    "say $\x7bgame $\x7b0\x7d\x7d and $\x7buser\x7d".toList ["bob".toList] (some sampleUser)
    [1, 0] (by decide)
  ⟨h.2.2.1.trans (by decide), h.2.2.2.trans (by decide)⟩

/-- C6: a named placeholder whose function name is none of `user`, `channel`
and `game` resolves to its own matched text, and a string all of whose named
placeholders have such names comes out of the named pass unchanged. -/
theorem namedPass_unknown_verbatim (env : Env) (userInfo : Option ChatUser) (s : Str)
    (order : List Nat)
    (h : ∀ i, i < (collectTasks env userInfo s).length → i ∈ order)
    (hunknown : ∀ seq m, Piece.placeholder seq m ∈ pieces s → m.fn ∉ knownFunctions) :
    (∀ seq m, Piece.placeholder seq m ∈ pieces s →
        resolveTask env userInfo seq m = .resolved m.text)
    ∧ namedPass env userInfo s order = some s := by
  constructor
  · intro seq m hm
    exact resolveTask_unknown env userInfo seq m (hunknown seq m hm)
  · rw [namedPass_eq_splice env userInfo s order h,
      splice_unknown env userInfo _ hunknown, pieces_flatMap_source]

theorem namedPass_unknown_verbatim_witness :
    (∀ seq m, Piece.placeholder seq m ∈ pieces "say $\x7bbogus foo\x7d".toList →
        resolveTask sampleEnv none seq m = .resolved m.text)
    ∧ namedPass sampleEnv none "say $\x7bbogus foo\x7d".toList [0]
        = some "say $\x7bbogus foo\x7d".toList :=
  namedPass_unknown_verbatim sampleEnv none "say $\x7bbogus foo\x7d".toList [0]
    (by decide)
    (by
      intro seq m hm
      have hp : pieces "say $\x7bbogus foo\x7d".toList
          = [.text 's', .text 'a', .text 'y', .text ' ',
             .placeholder 0 ⟨"$\x7bbogus foo\x7d".toList, "bogus".toList,
               some "foo".toList⟩] := by decide
      rw [hp] at hm
      simp only [List.mem_cons, List.mem_singleton, Piece.placeholder.injEq, reduceCtorEq,
        false_or, List.not_mem_nil, or_false] at hm
      obtain ⟨_, rfl⟩ := hm
      decide)

/-- C5, as stated: the output of the positional pass may hold a positional
placeholder, brought in by an argument or formed where a placeholder with an
empty replacement is removed, and a named placeholder of the command string
that holds a positional placeholder is not present in the output any more. -/
theorem positionalPass_leaves_placeholder :
    hasPositional (positionalPass (indexPlaceholder "0".toList) [indexPlaceholder "0".toList])
      = true
    ∧ hasPositional (positionalPass "$$\x7b5:\x7d\x7b0\x7d".toList ["a".toList]) = true
    ∧ Piece.placeholder 0
        ⟨"$\x7bgame $\x7b0\x7d".toList, "game".toList, some "$\x7b0".toList⟩
        ∈ pieces "say $\x7bgame $\x7b0\x7d\x7d".toList
    ∧ ¬ ("$\x7bgame $\x7b0\x7d".toList
          <:+: positionalPass "say $\x7bgame $\x7b0\x7d\x7d".toList ["bob".toList]) := by
  decide

/-- C5, amended: every named placeholder of the command string whose text
holds no `$` after its first character is still present in the output of the
positional pass; and the output holds no positional placeholder when no
argument holds a `$` and every `$` of the command string starts a positional
placeholder or is directly followed by `{` and a letter. -/
theorem positionalPass_placeholders (command : Str) (params : List Str) :
    (∀ seq nm, Piece.placeholder seq nm ∈ pieces command → '$' ∉ nm.text.tail →
        nm.text <:+: positionalPass command params)
    ∧ ((∀ a ∈ params, '$' ∉ a) → dollarsWellFormed command = true →
        hasPositional (positionalPass command params) = false) := by
  constructor
  · intro seq nm hmem hnd
    obtain ⟨pre, post, c2, t, hs, htext, hc2⟩ :=
      pieces_mem_decomp nm seq command.length command 0 (Nat.le_refl _) hmem
    have ht : '$' ∉ t := by
      intro h
      apply hnd
      rw [htext]
      exact List.mem_cons_of_mem _ (List.mem_cons_of_mem _ h)
    have hpass := positionalPass_named_text params pre post c2 t hc2 ht
    rw [← htext, ← hs] at hpass
    rw [hpass]
    exact ⟨positionalPass pre params, positionalPass post params, rfl⟩
  · intro hp hw
    exact hasPositional_of_namedOnly _
      (positionalPass_dollarsNamedOnly params hp command.length command (Nat.le_refl _) hw)

theorem positionalPass_placeholders_witness :
    "$\x7buser\x7d".toList
        <:+: positionalPass "say $\x7b0\x7d $\x7buser\x7d $\x7b1:\x7d".toList
          ["x".toList, "y".toList]
    ∧ hasPositional (positionalPass "say $\x7b0\x7d $\x7buser\x7d $\x7b1:\x7d".toList
          ["x".toList, "y".toList]) = false :=
  have h := positionalPass_placeholders "say $\x7b0\x7d $\x7buser\x7d $\x7b1:\x7d".toList
    ["x".toList, "y".toList]
  ⟨h.1 0 ⟨"$\x7buser\x7d".toList, "user".toList, none⟩ (by decide) (by decide),
   h.2 (by decide) (by decide)⟩

/-! ## Update and delete handlers -/

/-- A first argument without any decimal digit, or a missing one, makes the four
handlers fail before they do anything. -/
theorem edit_delete_reject (run : RunResult) (user : Option Str) (args : List Str)
    (h : hasDigit (args.headD []) = false) :
    edittip run user args = invalidArguments ∧ deletetip run user args = invalidArguments
    ∧ editquote run user args = invalidArguments
    ∧ deletequote run user args = invalidArguments := by
  have hb : ∀ n : Nat, (decide (args.length < n) || !hasDigit (args.headD [])) = true := by
    intro n; rw [h]; simp
  refine ⟨?_, ?_, ?_, ?_⟩
  · simp only [edittip, hb, if_true]
  · simp only [deletetip, hb, if_true]
  · simp only [editquote, hb, if_true]
  · simp only [deletequote, hb, if_true]

/-- C11: the first argument `12abc` is not made up solely of decimal digits,
yet none of the four handlers fails on it: each issues its update or delete
with `12abc` as the identifier and, when that succeeds, reports it.  A missing
first argument and one without any digit do make them fail with
`invalid arguments` and nothing else. -/
theorem edit_delete_accept_non_integer (run : RunResult) (user : Option Str) (lastID : Nat) :
    "12abc".toList.all Char.isDigit = false
    ∧ edittip (.done lastID) user ["12abc".toList, "new".toList, "text".toList]
      = ⟨none, [.dbRun "UPDATE tips SET message = ? WHERE id = ?".toList
            ["new text".toList, "12abc".toList],
          .say "Tip #12abc has been edited!".toList]⟩
    ∧ deletetip (.done lastID) user ["12abc".toList]
      = ⟨none, [.dbRun "DELETE FROM tips WHERE id = ?".toList ["12abc".toList],
          .say "Tip #12abc has been deleted!".toList]⟩
    ∧ editquote (.done lastID) user ["12abc".toList, "new".toList, "text".toList]
      = ⟨none, [.dbRun "UPDATE quotes SET message = ? WHERE id = ?".toList
            ["new text".toList, "12abc".toList],
          .say "Quote #12abc has been edited!".toList]⟩
    ∧ deletequote (.done lastID) user ["12abc".toList]
      = ⟨none, [.dbRun "DELETE FROM quotes WHERE id = ?".toList ["12abc".toList],
          .say "Quote #12abc has been deleted!".toList]⟩
    ∧ edittip run user [] = invalidArguments ∧ deletetip run user [] = invalidArguments
    ∧ editquote run user [] = invalidArguments ∧ deletequote run user [] = invalidArguments
    ∧ edittip run user ["abc".toList, "new".toList] = invalidArguments
    ∧ deletetip run user ["abc".toList] = invalidArguments
    ∧ editquote run user ["abc".toList, "new".toList] = invalidArguments
    ∧ deletequote run user ["abc".toList] = invalidArguments := by
  refine ⟨by decide, rfl, rfl, rfl, rfl, rfl, rfl, rfl, rfl, rfl, rfl, rfl, rfl⟩

/-! ## Raffle handlers -/

/-- C12: in every state where the raffle gate is active, `startraffle` (of
`commands.js` and of `commands/raffle.js`) fails, leaves the state as it is with
`raffle_active` true, and performs no action at all; the state after a first
`startraffle` whose database step succeeded is such a state. -/
theorem startraffle_while_active (fails : Bool) (pool : List Str)
    (user : Option Str) (args first : List Str) :
    startraffle fails ⟨true, pool⟩ user args
      = (⟨true, pool⟩, ⟨some "raffle not active".toList, []⟩)
    ∧ RaffleCommand.startraffle fails ⟨true, pool⟩ user args
      = (⟨true, pool⟩, ⟨some "raffle not active".toList, []⟩)
    ∧ (startraffle false ⟨false, pool⟩ user first).1.raffle_active = true
    ∧ startraffle fails (startraffle false ⟨false, pool⟩ user first).1 user args
      = ((startraffle false ⟨false, pool⟩ user first).1,
          ⟨some "raffle not active".toList, []⟩)
    ∧ (RaffleCommand.startraffle false ⟨false, pool⟩ user first).1.raffle_active = true
    ∧ RaffleCommand.startraffle fails
        (RaffleCommand.startraffle false ⟨false, pool⟩ user first).1 user args
      = ((RaffleCommand.startraffle false ⟨false, pool⟩ user first).1,
          ⟨some "raffle not active".toList, []⟩) := by
  refine ⟨rfl, rfl, rfl, rfl, rfl, rfl⟩

theorem isPrefixOf_winnerToken_append (post : Str) :
    winnerToken.isPrefixOf (winnerToken ++ post) = true := by
  simp [winnerToken, List.isPrefixOf]

theorem isPrefixOf_winnerToken_cons (c : Char) (t : Str) (h : c ≠ '$') :
    winnerToken.isPrefixOf (c :: t) = false := by
  have h2 : ¬ '$' = c := fun e => h e.symm
  simp [winnerToken, List.isPrefixOf, h2]

/-- The first `${winner}` of a string sits after the text that holds no `$`. -/
theorem findFirst_winnerToken (pre post : Str) (h : '$' ∉ pre) :
    ∀ acc : Str, findFirst winnerToken acc (pre ++ winnerToken ++ post)
      = some (acc ++ pre, post) := by
  induction pre with
  | nil =>
    intro acc
    have hs : [] ++ winnerToken ++ post = '$' :: ("\x7bwinner\x7d".toList ++ post) := rfl
    have hp : winnerToken.isPrefixOf ('$' :: ("\x7bwinner\x7d".toList ++ post)) = true :=
      isPrefixOf_winnerToken_append post
    rw [hs]
    simp only [findFirst, hp, if_true, List.append_nil]
    rfl
  | cons c t ih =>
    intro acc
    have hc : c ≠ '$' := fun e => h (by rw [e]; exact List.mem_cons_self _ _)
    have ht : '$' ∉ t := fun e => h (List.mem_cons_of_mem _ e)
    have hs : c :: t ++ winnerToken ++ post = c :: (t ++ winnerToken ++ post) := rfl
    rw [hs]
    simp only [findFirst, isPrefixOf_winnerToken_cons c _ hc, Bool.false_eq_true, if_false]
    rw [ih ht (acc ++ [c])]
    simp

/-- C13, as stated: `endraffle` does not clear the participant pool; after it
the pool still holds `alice`. -/
theorem endraffle_keeps_pool :
    (endraffle false 0 ⟨true, ["alice".toList]⟩ none [winnerToken]).1.pool ≠ []
    ∧ (RaffleCommand.endraffle false 0 ⟨true, ["alice".toList]⟩ none [winnerToken]).1.pool
        ≠ [] := by
  decide

/-- C13, amended: with the gate active, the pool holding the single entry
`alice` and the query succeeding, `endraffle` (of `commands.js` and of
`commands/raffle.js`) selects `alice` whatever the random choice, leaves the
pool as it is, sets `raffle_active` to false and saves the settings, sends the
`rafflewinner` notification for `alice` and says the arguments joined by
spaces with the first `${winner}` replaced by `alice`; the pool is cleared by
the next `startraffle`. -/
theorem endraffle_single_entry (pick : Nat) (user : Option Str) (args : List Str) :
    randomRow pick ["alice".toList] = some "alice".toList
    ∧ endraffle false pick ⟨true, ["alice".toList]⟩ user args
      = (⟨false, ["alice".toList]⟩, ⟨none,
          [.dbGet "SELECT user FROM raffle ORDER BY RANDOM() LIMIT 1".toList,
           .saveSettings,
           .sendAlert "rafflewinner".toList "alice".toList,
           .say (jsReplace (joinSp args) winnerToken "alice".toList)]⟩)
    ∧ RaffleCommand.endraffle false pick ⟨true, ["alice".toList]⟩ user args
      = (⟨false, ["alice".toList]⟩, ⟨none,
          [.dbGet ("SELECT displayName FROM users WHERE raffle > 0 ".toList
              ++ "ORDER BY RANDOM() LIMIT 1".toList),
           .saveSettings,
           .sendAlert "rafflewinner".toList "alice".toList,
           .say (jsReplace (joinSp args) winnerToken "alice".toList)]⟩)
    ∧ (∀ pre post : Str, '$' ∉ pre →
        jsReplace (pre ++ winnerToken ++ post) winnerToken "alice".toList
          = pre ++ "alice".toList ++ post)
    ∧ (startraffle false ⟨false, ["alice".toList]⟩ user args).1 = ⟨true, []⟩
    ∧ (RaffleCommand.startraffle false ⟨false, ["alice".toList]⟩ user args).1
        = ⟨true, []⟩ := by
  have hrow : randomRow pick ["alice".toList] = some "alice".toList := by
    simp [randomRow, Nat.mod_one]
  refine ⟨hrow, ?_, ?_, ?_, rfl, rfl⟩
  · simp only [endraffle, endraffleDone, hrow]
    rfl
  · simp only [RaffleCommand.endraffle, endraffleDone, hrow]
    rfl
  · intro pre post h
    simp only [jsReplace, findFirst_winnerToken pre post h [], List.nil_append]
    rfl

theorem endraffle_single_entry_witness :
    endraffle false 7 ⟨true, ["alice".toList]⟩ (some "host".toList)
        ["gg".toList, winnerToken, "wins".toList]
      = (⟨false, ["alice".toList]⟩, ⟨none,
          [.dbGet "SELECT user FROM raffle ORDER BY RANDOM() LIMIT 1".toList,
           .saveSettings,
           .sendAlert "rafflewinner".toList "alice".toList,
           .say "gg alice wins".toList]⟩)
    ∧ jsReplace ("gg ".toList ++ winnerToken ++ " wins".toList) winnerToken "alice".toList
      = "gg ".toList ++ "alice".toList ++ " wins".toList :=
  have h := endraffle_single_entry 7 (some "host".toList)
    ["gg".toList, winnerToken, "wins".toList]
  ⟨h.2.1.trans (by decide), h.2.2.2.1 "gg ".toList " wins".toList (by decide)⟩

/-! ## Tokenization -/

theorem splitWsGo_ne_nil (b : Bool) (s : Str) : splitWsGo b s ≠ [] := by
  induction s generalizing b with
  | nil => simp [splitWsGo]
  | cons c t ih =>
    simp only [splitWsGo]
    by_cases hc : isJsSpace c = true
    · rw [if_pos hc]
      cases b with
      | true => simpa using ih true
      | false => simp
    · rw [if_neg hc]
      cases hr : splitWsGo false t with
      | nil => simp
      | cons tok r => simp

theorem getLast?_cons_of_ne_nil {α : Type} (a : α) (l : List α) (h : l ≠ []) :
    (a :: l).getLast? = l.getLast? := by
  cases l with
  | nil => exact absurd rfl h
  | cons b r => exact List.getLast?_cons_cons

/-- The token sequence of a string that ends with whitespace ends with the
empty token, and holds a token before it when the scan does not start inside
whitespace. -/
theorem splitWsGo_trailing (c : Char) (hc : isJsSpace c = true) (t : Str) :
    ∀ b : Bool, (splitWsGo b (t ++ [c])).getLast? = some []
      ∧ (b = false → 2 ≤ (splitWsGo b (t ++ [c])).length) := by
  induction t with
  | nil =>
    intro b
    cases b with
    | true => simp [splitWsGo, hc]
    | false => simp [splitWsGo, hc]
  | cons x t ih =>
    intro b
    simp only [List.cons_append, splitWsGo]
    by_cases hx : isJsSpace x = true
    · rw [if_pos hx]
      cases b with
      | true =>
        simp only [if_true]
        exact ⟨(ih true).1, fun h => absurd h (by decide)⟩
      | false =>
        simp only [Bool.false_eq_true, if_false]
        refine ⟨?_, fun _ => ?_⟩
        · rw [getLast?_cons_of_ne_nil _ _ (splitWsGo_ne_nil true _)]
          exact (ih true).1
        · have hne := splitWsGo_ne_nil true (t ++ [c])
          have : 1 ≤ (splitWsGo true (t ++ [c])).length := by
            cases hr : splitWsGo true (t ++ [c]) with
            | nil => exact absurd hr hne
            | cons a r => simp
          show 2 ≤ (splitWsGo true (t ++ [c])).length + 1
          omega
    · rw [if_neg hx]
      obtain ⟨hlast, hlen⟩ := ih false
      have hlen2 := hlen rfl
      cases hr : splitWsGo false (t ++ [c]) with
      | nil => rw [hr] at hlen2; simp at hlen2
      | cons tok r =>
        rw [hr] at hlast hlen2
        have hrne : r ≠ [] := by
          intro h0
          rw [h0] at hlen2
          simp at hlen2
        simp only
        refine ⟨?_, fun _ => by simpa using hlen2⟩
        rw [getLast?_cons_of_ne_nil _ _ hrne]
        rw [getLast?_cons_of_ne_nil _ _ hrne] at hlast
        exact hlast

theorem lookupThis_nil (env : Env) : lookupThis env [] = .undefined := by
  cases env with
  | mk g u l r b => cases r <;> cases b <;> rfl

theorem dispatch_of_tokens (env : Env) (userInfo : Option ChatUser) (s name : Str)
    (args : List Str) (h : splitWs s = name :: args) :
    dispatch env userInfo s
      = (match lookupThis env name with
        | .undefined => Dispatch.commandNotFound
        | .object => Dispatch.notAFunction name
        | .function => Dispatch.call name (userInfo.map (fun u => u.username)) args) := by
  simp only [dispatch, h]

/-- C14: tokenization never yields an empty token sequence; for the empty
string and for every string that starts with whitespace the first token is the
empty string and the dispatch fails with `command not found`, whatever
follows the whitespace; and for every string that ends with whitespace the
token sequence is a first token followed by arguments of which the last is the
empty string, which is what the handler receives when the first token names
a function.  `parseCommand` dispatches on the reassembled string. -/
theorem splitWs_edge_tokens (env : Env) (userInfo : Option ChatUser) :
    (∀ s : Str, splitWs s ≠ [])
    ∧ (splitWs [] = [[]] ∧ dispatch env userInfo [] = .commandNotFound)
    ∧ (∀ (c : Char) (t : Str), isJsSpace c = true →
        (splitWs (c :: t)).head? = some []
          ∧ dispatch env userInfo (c :: t) = .commandNotFound)
    ∧ (∀ (t : Str) (c : Char), isJsSpace c = true →
        ∃ first args, splitWs (t ++ [c]) = first :: args ∧ args.getLast? = some []
          ∧ (lookupThis env first = .function →
              dispatch env userInfo (t ++ [c])
                = .call first (userInfo.map (fun u => u.username)) args))
    ∧ (∀ (command : Str) (params : List Str) (order : List Nat) (s : Str),
        namedPass env userInfo (positionalPass command params) order = some s →
          parseCommand env command params userInfo order = dispatch env userInfo s) := by
  refine ⟨fun s => splitWsGo_ne_nil false s, ⟨rfl, ?_⟩, ?_, ?_, ?_⟩
  · rw [dispatch_of_tokens env userInfo [] [] [] rfl, lookupThis_nil]
  · intro c t hc
    have hs : splitWs (c :: t) = [] :: splitWsGo true t := by
      simp [splitWs, splitWsGo, hc]
    refine ⟨by rw [hs]; rfl, ?_⟩
    rw [dispatch_of_tokens env userInfo _ [] _ hs, lookupThis_nil]
  · intro t c hc
    obtain ⟨hlast, hlen⟩ := splitWsGo_trailing c hc t false
    have hlen2 := hlen rfl
    cases hr : splitWsGo false (t ++ [c]) with
    | nil => rw [hr] at hlen2; simp at hlen2
    | cons first args =>
      rw [hr] at hlast hlen2
      have hne : args ≠ [] := by
        intro h0
        rw [h0] at hlen2
        simp at hlen2
      rw [getLast?_cons_of_ne_nil _ _ hne] at hlast
      refine ⟨first, args, hr, hlast, fun hf => ?_⟩
      rw [dispatch_of_tokens env userInfo _ first args hr, hf]
  · intro command params order s h
    simp only [parseCommand, h]

theorem splitWs_edge_tokens_witness :
    isCommand sampleEnv "say".toList = true
    ∧ parseCommand sampleEnv " say hi".toList [] none [] = .commandNotFound
    ∧ (∃ first args, splitWs ("say hi".toList ++ [' ']) = first :: args
        ∧ args.getLast? = some []
        ∧ (lookupThis sampleEnv first = .function →
            dispatch sampleEnv none ("say hi".toList ++ [' '])
              = .call first (Option.map (fun (u : ChatUser) => u.username) none) args))
    ∧ parseCommand sampleEnv "say hi ".toList [] none []
        = .call "say".toList none ["hi".toList, []] :=
  have h := splitWs_edge_tokens sampleEnv none
  ⟨by decide,
   (h.2.2.2.2 " say hi".toList [] [] " say hi".toList (by decide)).trans
     (h.2.2.1 ' ' "say hi".toList (by decide)).2,
   h.2.2.2.1 "say hi".toList ' ' (by decide),
   (h.2.2.2.2 "say hi ".toList [] [] "say hi ".toList (by decide)).trans (by decide)⟩

end Stevelabs
